import Mathlib

/-!
A verification development for the go-score board-parser pipeline
(src/board-parser/src/board.rs and src/board-parser/src/xd.rs).

Conventions of the embedding:
* unsigned machine integers (u8, u32) are modelled as naturals; none of the
  embedded arithmetic can overflow on the inputs the pipeline handles, and
  the source's saturating-style absolute difference is modelled by diff;
* f32 values are modelled as exact rationals, with the literal 0.66 read as
  33/50; all other float literals in the source (1.5, 8.0, 0.5, 2.0, 1.0,
  1/10000, 1/9000, 1/3000, 102.0, ...) are taken at face value.  The source
  only compares, adds, multiplies and divides small quantities, and every
  verdict below is rounding-robust, so exact rational arithmetic is used;
* Vec<Vec<bool>> is modelled as List (List Bool), HashMap-based accumulation
  as association lists built in insertion order, and the one reachable
  panic (the todo! in transformation_error) as an Except.error result;
* Rust Vec::sort on integer keys is modelled by insertionSort with (· ≤ ·),
  which produces the same sorted list.
-/

namespace GoBoard

/-- Absolute difference from NumExt::diff in num_ext.rs:
if self > other then self - other else other - self. -/
def diff (a b : ℕ) : ℕ := if a > b then a - b else b - a

/-- BLACK_THRESHOLD constant of board.rs (and xd.rs). -/
def BLACK_THRESHOLD : ℕ := 30

/-- GRAYNESS_LIMIT constant of board.rs (and xd.rs). -/
def GRAYNESS_LIMIT : ℕ := 8

/-- MIN_STONE_SIZE constant of board.rs (an f32, 8.0). -/
def MIN_STONE_SIZE : ℚ := 8

/-- MIN_BLACK_STONES_ON_BOARD constant of board.rs. -/
def MIN_BLACK_STONES_ON_BOARD : ℕ := 6

/-- MIN_STONE_SIZE constant of xd.rs (a u32, 5). -/
def XD_MIN_STONE_SIZE : ℕ := 5

/-- Pixel coordinates (u32 in the source). -/
structure Point where
  x : ℕ
  y : ℕ
deriving DecidableEq, Repr

/-- A detected blob: bounding box of a connected region of dark pixels. -/
structure BlackStone where
  top_left : Point
  bottom_right : Point
deriving DecidableEq, Repr

/-- BlackStone::new: both corners start at the seed point. -/
def BlackStone.new (at' : Point) : BlackStone := ⟨at', at'⟩

/-- BlackStone::push: min-extend the top-left corner, max-extend the
bottom-right corner. -/
def BlackStone.push (s : BlackStone) (point : Point) : BlackStone :=
  { top_left := ⟨min s.top_left.x point.x, min s.top_left.y point.y⟩
    bottom_right := ⟨max s.bottom_right.x point.x, max s.bottom_right.y point.y⟩ }

/-- BlackStone::width: bottom_right.x - top_left.x. -/
def BlackStone.width (s : BlackStone) : ℕ := s.bottom_right.x - s.top_left.x

/-- BlackStone::height: bottom_right.y - top_left.y. -/
def BlackStone.height (s : BlackStone) : ℕ := s.bottom_right.y - s.top_left.y

/-- BlackStone::center: bottom_right - (bottom_right - top_left) / 2 in each
coordinate, with the truncating division of unsigned integers. -/
def BlackStone.center (s : BlackStone) : Point :=
  ⟨s.bottom_right.x - (s.bottom_right.x - s.top_left.x) / 2,
   s.bottom_right.y - (s.bottom_right.y - s.top_left.y) / 2⟩

/-- One RGB8 pixel. -/
structure Rgb where
  r : ℕ
  g : ℕ
  b : ℕ
deriving DecidableEq, Repr

/-- A row-major raster, as the list of its pixel rows. -/
abbrev RgbImage := List (List Rgb)

/-- Wellformedness of a raster for dimensions width and height: the row list
has height rows, each of length width. -/
def RgbImage.wf (image : RgbImage) (width height : ℕ) : Prop :=
  image.length = height ∧ ∀ row ∈ image, row.length = width

/-- The boolean mask type (BlackPixels in the source). -/
abbrev BlackPixels := List (List Bool)

/-- Wellformedness of a mask for dimensions width and height. -/
def BlackPixels.wf (m : BlackPixels) (width height : ℕ) : Prop :=
  m.length = height ∧ ∀ row ∈ m, row.length = width

/-- The pixel classifier inlined in find_black_stones (board.rs, xd.rs):
r < BLACK_THRESHOLD && (r.diff(g) <= GRAYNESS_LIMIT && r.diff(b) <=
GRAYNESS_LIMIT && g.diff(b) <= GRAYNESS_LIMIT). -/
def is_black_pixel (r g b : ℕ) : Bool :=
  decide (r < BLACK_THRESHOLD) &&
    (decide (diff r g ≤ GRAYNESS_LIMIT) && decide (diff r b ≤ GRAYNESS_LIMIT) &&
      decide (diff g b ≤ GRAYNESS_LIMIT))

/-- The mask-building loop of find_black_stones: classify every pixel,
row by row. -/
def black_pixels (image : RgbImage) : BlackPixels :=
  image.map (fun row => row.map (fun p => is_black_pixel p.r p.g p.b))

/-- Bounds-checked access from board.rs (pixel_value): any out-of-range
coordinate yields the default. -/
def pixel_value {α : Type} (vec : List (List α)) (x y : ℤ) (default : α) : α :=
  if x < 0 ∨ y < 0 then default
  else
    match vec.get? y.toNat with
    | none => default
    | some row =>
      match row.get? x.toNat with
      | none => default
      | some value => value

theorem diff_eq_natAbs (a b : ℕ) : diff a b = ((a : ℤ) - b).natAbs := by
  unfold diff; split <;> omega

/-- Claim C6: the classifier returns true iff R < 30 and all three pairwise
channel gaps are at most 8; the achromatic boundary cases R = 29 and R = 30
classify true and false respectively; and equal inputs give equal outputs. -/
theorem C6_classifier_exact :
    (∀ r g b : ℕ, is_black_pixel r g b = true ↔
      (r < 30 ∧ ((r : ℤ) - g).natAbs ≤ 8 ∧ ((r : ℤ) - b).natAbs ≤ 8 ∧
        ((g : ℤ) - b).natAbs ≤ 8)) ∧
    is_black_pixel 29 29 29 = true ∧
    is_black_pixel 30 30 30 = false ∧
    (∀ r g b r' g' b' : ℕ, r = r' → g = g' → b = b' →
      is_black_pixel r g b = is_black_pixel r' g' b') := by
  refine ⟨fun r g b => ?_, by decide, by decide, ?_⟩
  · simp only [is_black_pixel, BLACK_THRESHOLD, GRAYNESS_LIMIT, diff_eq_natAbs,
      Bool.and_eq_true, decide_eq_true_eq]
    tauto
  · intro r g b r' g' b' hr hg hb
    rw [hr, hg, hb]

/-- Witness for claim C6 at concrete equal inputs. -/
theorem C6_classifier_exact_witness :
    is_black_pixel 10 11 12 = is_black_pixel 10 11 12 :=
  C6_classifier_exact.2.2.2 10 11 12 10 11 12 rfl rfl rfl

/-- The noise post-filter of find_black_objects in board.rs:
w > MIN_STONE_SIZE && h > MIN_STONE_SIZE && w > h * 0.66 && w < h * 1.5,
with w and h the f32 casts of the blob dimensions. -/
def board_noise_keep (object : BlackStone) : Bool :=
  let w : ℚ := object.width
  let h : ℚ := object.height
  decide (w > MIN_STONE_SIZE) && decide (h > MIN_STONE_SIZE) &&
    decide (w > h * (33 / 50)) && decide (w < h * (3 / 2))

/-- The noise post-filter of find_black_objects in xd.rs:
object.width() > MIN_STONE_SIZE || object.height() > MIN_STONE_SIZE,
a u32 comparison against 5. -/
def xd_noise_keep (object : BlackStone) : Bool :=
  decide (object.width > XD_MIN_STONE_SIZE) ||
    decide (object.height > XD_MIN_STONE_SIZE)

/-- The noise filter as claim C4 words it (spec section 4.2 plus the stricter
open-question resolution): width > 5 AND height > 5 AND 0.66 h < w < 1.5 h. -/
def spec_noise_keep (object : BlackStone) : Prop :=
  5 < (object.width : ℚ) ∧ 5 < (object.height : ℚ) ∧
    (object.height : ℚ) * (33 / 50) < object.width ∧
    (object.width : ℚ) < (object.height : ℚ) * (3 / 2)

/-- Counterexample for claim C4: a 6-by-6 blob satisfies the claim's filter
(dimensions above 5, aspect ratio 1) yet board.rs discards it, because the
absolute floor in board.rs is 8, not 5; and a 6-by-0 blob fails the claim's
filter yet xd.rs keeps it, because xd.rs tests the disjunction w > 5 || h > 5
with no aspect-ratio gate. -/
theorem C4_noise_filter_counterexample :
    spec_noise_keep ⟨⟨0, 0⟩, ⟨6, 6⟩⟩ ∧
    board_noise_keep ⟨⟨0, 0⟩, ⟨6, 6⟩⟩ = false ∧
    ¬ spec_noise_keep ⟨⟨0, 0⟩, ⟨6, 0⟩⟩ ∧
    xd_noise_keep ⟨⟨0, 0⟩, ⟨6, 0⟩⟩ = true := by
  refine ⟨?_, ?_, ?_, by decide⟩
  · refine ⟨by norm_num [BlackStone.width], by norm_num [BlackStone.height], ?_, ?_⟩ <;>
      norm_num [BlackStone.width, BlackStone.height]
  · norm_num [board_noise_keep, BlackStone.width, BlackStone.height, MIN_STONE_SIZE]
  · intro h
    have := h.2.1
    norm_num [BlackStone.height] at this

/-- Claim C4 (amended): a blob survives board.rs's noise filter iff both
dimensions exceed 8 and the width lies strictly between 0.66 and 1.5 times the
height, while xd.rs's filter keeps a blob iff width > 5 or height > 5; in
either file a blob with both dimensions at most 5 is discarded. -/
theorem C4_noise_filter :
    (∀ object : BlackStone,
      board_noise_keep object = true ↔
        (8 < (object.width : ℚ) ∧ 8 < (object.height : ℚ) ∧
          (object.height : ℚ) * (33 / 50) < object.width ∧
          (object.width : ℚ) < (object.height : ℚ) * (3 / 2))) ∧
    (∀ object : BlackStone,
      xd_noise_keep object = true ↔ (5 < object.width ∨ 5 < object.height)) ∧
    (∀ object : BlackStone, object.width ≤ 5 → object.height ≤ 5 →
      board_noise_keep object = false ∧ xd_noise_keep object = false) := by
  refine ⟨fun object => ?_, fun object => ?_, fun object hw hh => ?_⟩
  · simp only [board_noise_keep, MIN_STONE_SIZE, Bool.and_eq_true, decide_eq_true_eq]
    tauto
  · simp only [xd_noise_keep, XD_MIN_STONE_SIZE, Bool.or_eq_true, decide_eq_true_eq]
  · constructor
    · have hw' : (object.width : ℚ) ≤ 5 := by exact_mod_cast hw
      have hng : ¬ ((object.width : ℚ) > MIN_STONE_SIZE) := by
        rw [MIN_STONE_SIZE]; push_neg; linarith
      simp only [board_noise_keep, Bool.and_eq_false_iff]
      left; left; left
      exact decide_eq_false hng
    · simp only [xd_noise_keep, XD_MIN_STONE_SIZE, Bool.or_eq_false_iff]
      exact ⟨by simpa using hw, by simpa using hh⟩

/-- Witness for claim C4 at a concrete small blob. -/
theorem C4_noise_filter_witness :
    board_noise_keep ⟨⟨0, 0⟩, ⟨3, 3⟩⟩ = false ∧ xd_noise_keep ⟨⟨0, 0⟩, ⟨3, 3⟩⟩ = false :=
  C4_noise_filter.2.2 ⟨⟨0, 0⟩, ⟨3, 3⟩⟩ (by decide) (by decide)

/-- The distance-sampling loop of xd (xd.rs): for every index i over the slice
stones[0 .. len - 2], push the horizontal and then the vertical absolute
distance between stone i and stone i + 1, cast to float. -/
def center_distances (stones : List Point) : List ℚ :=
  (List.range (stones.length - 2)).flatMap (fun i =>
    let stone := stones.getD i ⟨0, 0⟩
    let next_stone := stones.getD (i + 1) ⟨0, 0⟩
    [(diff stone.x next_stone.x : ℚ), (diff stone.y next_stone.y : ℚ)])

/-- The distance sampler as claim C5 words it: pair stone i with stones i + 1,
N - 1 - i and (when i < N / 2) i + N / 2, and emit each of dx, dy only when it
exceeds stone_size. -/
def spec_center_distances (stones : List Point) (stone_size : ℚ) : List ℚ :=
  (List.range (stones.length - 2)).flatMap (fun i =>
    let pairs := [(i, i + 1), (i, stones.length - 1 - i)] ++
      (if i < stones.length / 2 then [(i, i + stones.length / 2)] else [])
    pairs.flatMap (fun pr =>
      let a := stones.getD pr.1 ⟨0, 0⟩
      let b := stones.getD pr.2 ⟨0, 0⟩
      (if stone_size < (diff a.x b.x : ℚ) then [(diff a.x b.x : ℚ)] else []) ++
        (if stone_size < (diff a.y b.y : ℚ) then [(diff a.y b.y : ℚ)] else [])))

theorem flatMap_pair_length {α : Type} (f g : ℕ → α) (n : ℕ) :
    ((List.range n).flatMap (fun i => [f i, g i])).length = 2 * n := by
  induction n with
  | zero => rfl
  | succ n ih =>
    rw [List.range_succ, List.flatMap_append, List.length_append, ih]
    simp [Nat.mul_succ]

theorem flatMap_pair_getD {α : Type} (f g : ℕ → α) (n i : ℕ) (hi : i < n) (d : α) :
    ((List.range n).flatMap (fun j => [f j, g j])).getD (2 * i) d = f i ∧
    ((List.range n).flatMap (fun j => [f j, g j])).getD (2 * i + 1) d = g i := by
  induction n with
  | zero => omega
  | succ n ih =>
    rw [List.range_succ, List.flatMap_append]
    rcases Nat.lt_or_ge i n with h | h
    · have hlen : 2 * i + 1 < ((List.range n).flatMap (fun j => [f j, g j])).length := by
        rw [flatMap_pair_length]; omega
      rw [List.getD_append _ _ _ _ (by omega), List.getD_append _ _ _ _ hlen]
      exact ih h
    · have hien : i = n := by omega
      subst hien
      have hlen : ((List.range i).flatMap (fun j => [f j, g j])).length = 2 * i :=
        flatMap_pair_length f g i
      constructor
      · rw [List.getD_append_right _ _ _ _ (by omega), hlen]
        simp
      · rw [List.getD_append_right _ _ _ _ (by omega), hlen]
        simp

/-- Counterexample for claim C5: six collinear stones at y = 0 with x = 0, 10,
20, 30, 40, 1000 and stone_size = 5.  The code emits [10, 0, 10, 0, 10, 0,
10, 0]: it contains 0, which is not greater than stone_size (so the claimed
suppression does not happen), it misses the across-the-board distance 1000
(so the claimed i, N-1-i pairing does not happen), and it differs from the
list the claim's sampler produces. -/
theorem C5_sampler_counterexample :
    center_distances
        [⟨0, 0⟩, ⟨10, 0⟩, ⟨20, 0⟩, ⟨30, 0⟩, ⟨40, 0⟩, ⟨1000, 0⟩] =
      [10, 0, 10, 0, 10, 0, 10, 0] ∧
    (0 : ℚ) ∈ center_distances
        [⟨0, 0⟩, ⟨10, 0⟩, ⟨20, 0⟩, ⟨30, 0⟩, ⟨40, 0⟩, ⟨1000, 0⟩] ∧
    ¬ ((5 : ℚ) < 0) ∧
    (1000 : ℚ) ∉ center_distances
        [⟨0, 0⟩, ⟨10, 0⟩, ⟨20, 0⟩, ⟨30, 0⟩, ⟨40, 0⟩, ⟨1000, 0⟩] ∧
    (1000 : ℚ) ∈ spec_center_distances
        [⟨0, 0⟩, ⟨10, 0⟩, ⟨20, 0⟩, ⟨30, 0⟩, ⟨40, 0⟩, ⟨1000, 0⟩] 5 := by
  refine ⟨?_, ?_, by norm_num, ?_, ?_⟩ <;>
    norm_num [center_distances, spec_center_distances, List.range_succ, diff]

/-- Claim C5 (amended): the sampler pairs each index i in [0, N-2) with i + 1
only; for each such pair it emits dx = |A.x - B.x| and dy = |A.y - B.y|
unconditionally, in that order, so the sample has length 2 (N - 2) and may
contain distances that are not greater than stone_size. -/
theorem C5_distance_sampler (stones : List Point) :
    (center_distances stones).length = 2 * (stones.length - 2) ∧
    ∀ i : ℕ, i < stones.length - 2 →
      (center_distances stones).getD (2 * i) 0 =
        (diff (stones.getD i ⟨0, 0⟩).x (stones.getD (i + 1) ⟨0, 0⟩).x : ℚ) ∧
      (center_distances stones).getD (2 * i + 1) 0 =
        (diff (stones.getD i ⟨0, 0⟩).y (stones.getD (i + 1) ⟨0, 0⟩).y : ℚ) := by
  constructor
  · exact flatMap_pair_length _ _ _
  · intro i hi
    exact flatMap_pair_getD _ _ _ i hi 0

/-- Witness for claim C5 at a concrete stone list and index. -/
theorem C5_distance_sampler_witness :
    (center_distances [⟨0, 0⟩, ⟨10, 0⟩, ⟨20, 7⟩]).getD 0 0 =
      (diff 0 10 : ℚ) ∧
    (center_distances [⟨0, 0⟩, ⟨10, 0⟩, ⟨20, 7⟩]).getD 1 0 =
      (diff 0 0 : ℚ) :=
  (C5_distance_sampler [⟨0, 0⟩, ⟨10, 0⟩, ⟨20, 7⟩]).2 0 (by norm_num)

/-- Median-window stone filter of find_black_stones in board.rs, applied after
the emptiness check: sort the blob widths and heights, take the entries at
index len / 2 as the characteristic dimensions, keep the blobs whose
dimensions lie strictly inside the (0.66 m, 1.5 m) windows, and return
(mean_height + mean_width) / 2 together with the kept blobs. -/
def stone_filter (black_objects : List BlackStone) : ℚ × List BlackStone :=
  let widths := List.insertionSort (· ≤ ·) (black_objects.map BlackStone.width)
  let heights := List.insertionSort (· ≤ ·) (black_objects.map BlackStone.height)
  let mean_width : ℚ := (widths.getD (widths.length / 2) 0 : ℕ)
  let mean_height : ℚ := (heights.getD (heights.length / 2) 0 : ℕ)
  let stones := black_objects.filter (fun object =>
    let w : ℚ := object.width
    let h : ℚ := object.height
    decide (w < mean_width * (3 / 2)) && decide (w > mean_width * (33 / 50)) &&
      decide (h < mean_height * (3 / 2)) && decide (h > mean_height * (33 / 50)))
  ((mean_height + mean_width) / 2, stones)

/-- Median-window stone filter of find_black_stones in xd.rs: identical to the
one of board.rs except that the returned size is mean_height + mean_width,
without the division by two. -/
def xd_stone_filter (black_objects : List BlackStone) : ℚ × List BlackStone :=
  let widths := List.insertionSort (· ≤ ·) (black_objects.map BlackStone.width)
  let heights := List.insertionSort (· ≤ ·) (black_objects.map BlackStone.height)
  let mean_width : ℚ := (widths.getD (widths.length / 2) 0 : ℕ)
  let mean_height : ℚ := (heights.getD (heights.length / 2) 0 : ℕ)
  let stones := black_objects.filter (fun object =>
    let w : ℚ := object.width
    let h : ℚ := object.height
    decide (w < mean_width * (3 / 2)) && decide (w > mean_width * (33 / 50)) &&
      decide (h < mean_height * (3 / 2)) && decide (h > mean_height * (33 / 50)))
  (mean_height + mean_width, stones)

/-- The median width as claim C7 words it: the sorted blob widths indexed at
len / 2. -/
def w_med (black_objects : List BlackStone) : ℕ :=
  (List.insertionSort (· ≤ ·) (black_objects.map BlackStone.width)).getD
    (black_objects.length / 2) 0

/-- The median height as claim C7 words it: the sorted blob heights indexed at
len / 2. -/
def h_med (black_objects : List BlackStone) : ℕ :=
  (List.insertionSort (· ≤ ·) (black_objects.map BlackStone.height)).getD
    (black_objects.length / 2) 0

/-- Counterexample for claim C7: on six 10-by-10-pixel blobs (bounding-box
dimensions 9), both medians are 9, so the claim predicts stone_size
(9 + 9) / 2 = 9; xd.rs's find_black_stones instead returns
mean_height + mean_width = 18. -/
theorem C7_stone_size_counterexample :
    (xd_stone_filter
        [⟨⟨0, 0⟩, ⟨9, 9⟩⟩, ⟨⟨20, 0⟩, ⟨29, 9⟩⟩, ⟨⟨40, 0⟩, ⟨49, 9⟩⟩,
          ⟨⟨0, 20⟩, ⟨9, 29⟩⟩, ⟨⟨20, 20⟩, ⟨29, 29⟩⟩, ⟨⟨40, 20⟩, ⟨49, 29⟩⟩]).1 = 18 ∧
    ((9 : ℚ) + 9) / 2 ≠ 18 := by
  constructor
  · norm_num [xd_stone_filter, BlackStone.width, BlackStone.height,
      List.insertionSort, List.orderedInsert]
  · norm_num

/-- Claim C7 (amended): with w_med and h_med the sorted blob widths and
heights indexed at len / 2, both stone filters accept exactly the blobs whose
width lies strictly inside (0.66 w_med, 1.5 w_med) and whose height lies
strictly inside (0.66 h_med, 1.5 h_med); board.rs's filter returns
stone_size = (w_med + h_med) / 2 as the claim states, while xd.rs's filter
returns w_med + h_med, without the halving. -/
theorem C7_stone_filter (black_objects : List BlackStone) :
    (stone_filter black_objects).1 =
      ((w_med black_objects : ℚ) + (h_med black_objects : ℚ)) / 2 ∧
    (xd_stone_filter black_objects).1 =
      (w_med black_objects : ℚ) + (h_med black_objects : ℚ) ∧
    (∀ o : BlackStone, o ∈ (stone_filter black_objects).2 ↔
      (o ∈ black_objects ∧
        (w_med black_objects : ℚ) * (33 / 50) < o.width ∧
        (o.width : ℚ) < (w_med black_objects : ℚ) * (3 / 2) ∧
        (h_med black_objects : ℚ) * (33 / 50) < o.height ∧
        (o.height : ℚ) < (h_med black_objects : ℚ) * (3 / 2))) ∧
    (xd_stone_filter black_objects).2 = (stone_filter black_objects).2 := by
  have hlw : (List.insertionSort (· ≤ ·) (black_objects.map BlackStone.width)).length
      = black_objects.length := by
    rw [List.length_insertionSort, List.length_map]
  have hlh : (List.insertionSort (· ≤ ·) (black_objects.map BlackStone.height)).length
      = black_objects.length := by
    rw [List.length_insertionSort, List.length_map]
  refine ⟨?_, ?_, ?_, rfl⟩
  · simp only [stone_filter, w_med, h_med, hlw, hlh]
    ring
  · simp only [xd_stone_filter, w_med, h_med, hlw, hlh]
    ring
  · intro o
    simp only [stone_filter, w_med, h_med, hlw, hlh, List.mem_filter,
      Bool.and_eq_true, decide_eq_true_eq]
    tauto

/-- f32::round as the refinement loop of xd uses it: round half away from
zero. -/
def rust_round (q : ℚ) : ℤ := if q < 0 then -⌊-q + 1 / 2⌋ else ⌊q + 1 / 2⌋

/-- div.round().max(1.0) from the refinement loop of xd. -/
def closest_int (d est : ℚ) : ℚ := max ((rust_round (d / est) : ℤ) : ℚ) 1

/-- One pass of the total_change accumulation in the refinement loop of xd:
the sum over the sampled distances of d / closest_int - estimate. -/
def total_change (ds : List ℚ) (est : ℚ) : ℚ :=
  (ds.map (fun d => d / closest_int d est - est)).sum

/-- average_change = total_change / number of samples, as in xd. -/
def average_change (ds : List ℚ) (est : ℚ) : ℚ :=
  total_change ds est / (ds.length : ℚ)

/-- The refinement loop of xd: add the average change to the estimate and
stop as soon as the average change is below one pixel in absolute value,
returning the updated estimate.  The source runs a bare loop with no
iteration cap; the fuel argument only makes the recursion structural, and
the termination theorem below exhibits a computable fuel that suffices. -/
def spacing_loop : ℕ → List ℚ → ℚ → Option ℚ
  | 0, _, _ => none
  | fuel + 1, ds, est =>
    let ac := average_change ds est
    let est' := est + ac
    if |ac| < 1 then some est' else spacing_loop fuel ds est'

/-- One estimate update of the refinement loop. -/
def next_est (ds : List ℚ) (est : ℚ) : ℚ := est + average_change ds est

/-- The successive estimates produced by the refinement loop. -/
def est_orbit (ds : List ℚ) (est : ℚ) : ℕ → ℚ
  | 0 => est
  | n + 1 => next_est ds (est_orbit ds est n)

/-- Iteration bound for the refinement loop: the sum of the samples, rounded
up, plus three. -/
def spacing_cap (ds : List ℚ) : ℕ := (⌈ds.sum⌉).toNat + 3

theorem closest_int_one_le (d est : ℚ) : 1 ≤ closest_int d est :=
  le_max_right _ _

theorem closest_int_pos (d est : ℚ) : 0 < closest_int d est :=
  lt_of_lt_of_le one_pos (closest_int_one_le d est)

theorem unit_nonneg {d : ℚ} (est : ℚ) (hd : 0 ≤ d) :
    0 ≤ d / closest_int d est :=
  div_nonneg hd (le_of_lt (closest_int_pos d est))

theorem unit_le {d : ℚ} (est : ℚ) (hd : 0 ≤ d) :
    d / closest_int d est ≤ d :=
  div_le_self hd (closest_int_one_le d est)

theorem rust_round_mono {a b : ℚ} (ha : 0 ≤ a) (h : a ≤ b) :
    rust_round a ≤ rust_round b := by
  unfold rust_round
  rw [if_neg (not_lt.mpr ha), if_neg (not_lt.mpr (le_trans ha h))]
  exact Int.floor_le_floor (by linarith)

theorem closest_int_antitone {d e1 e2 : ℚ} (hd : 0 ≤ d) (h1 : 0 < e1)
    (h12 : e1 ≤ e2) : closest_int d e2 ≤ closest_int d e1 := by
  unfold closest_int
  have hdiv : d / e2 ≤ d / e1 := by gcongr
  have hr : rust_round (d / e2) ≤ rust_round (d / e1) :=
    rust_round_mono (div_nonneg hd (le_of_lt (lt_of_lt_of_le h1 h12))) hdiv
  exact max_le_max (by exact_mod_cast hr) le_rfl

theorem unit_mono {d e1 e2 : ℚ} (hd : 0 ≤ d) (h1 : 0 < e1) (h12 : e1 ≤ e2) :
    d / closest_int d e1 ≤ d / closest_int d e2 := by
  have hanti := closest_int_antitone hd h1 h12
  have hp2 := closest_int_pos d e2
  gcongr

theorem sum_map_sub_const (l : List ℚ) (c : ℚ) (f : ℚ → ℚ) :
    (l.map (fun d => f d - c)).sum = (l.map f).sum - l.length * c := by
  induction l with
  | nil => simp
  | cons a t ih =>
    simp only [List.map_cons, List.sum_cons, ih, List.length_cons]
    push_cast
    ring

theorem length_cast_pos {ds : List ℚ} (hne : ds ≠ []) : (0 : ℚ) < ds.length := by
  have := List.length_pos.mpr hne
  exact_mod_cast this

theorem next_est_eq {ds : List ℚ} (est : ℚ) (hne : ds ≠ []) :
    next_est ds est = (ds.map (fun d => d / closest_int d est)).sum / (ds.length : ℚ) := by
  have hn := length_cast_pos hne
  unfold next_est average_change total_change
  rw [sum_map_sub_const]
  field_simp
  ring

theorem next_est_le_sum {ds : List ℚ} (est : ℚ) (hne : ds ≠ [])
    (hnn : ∀ d ∈ ds, 0 ≤ d) : next_est ds est ≤ ds.sum := by
  rw [next_est_eq est hne]
  have hn := length_cast_pos hne
  have hone : (1 : ℚ) ≤ ds.length := by
    have := List.length_pos.mpr hne
    exact_mod_cast this
  have hsum_le : (ds.map (fun d => d / closest_int d est)).sum ≤ ds.sum := by
    have := List.sum_le_sum (l := ds) (f := fun d => d / closest_int d est) (g := id)
      (fun d hd => unit_le est (hnn d hd))
    simpa using this
  have hsum_nn : 0 ≤ (ds.map (fun d => d / closest_int d est)).sum := by
    apply List.sum_nonneg
    intro x hx
    obtain ⟨d, hd, rfl⟩ := List.mem_map.mp hx
    exact unit_nonneg est (hnn d hd)
  calc (ds.map (fun d => d / closest_int d est)).sum / (ds.length : ℚ)
      ≤ (ds.map (fun d => d / closest_int d est)).sum / 1 := by gcongr
    _ = (ds.map (fun d => d / closest_int d est)).sum := by rw [div_one]
    _ ≤ ds.sum := hsum_le

theorem next_est_pos {ds : List ℚ} (est : ℚ) (hne : ds ≠ [])
    (hnn : ∀ d ∈ ds, 0 ≤ d) (hex : ∃ d ∈ ds, 0 < d) : 0 < next_est ds est := by
  rw [next_est_eq est hne]
  apply div_pos ?_ (length_cast_pos hne)
  obtain ⟨d0, hmem, hd0⟩ := hex
  have hunit : 0 < d0 / closest_int d0 est := div_pos hd0 (closest_int_pos d0 est)
  have hmem' : d0 / closest_int d0 est ∈ ds.map (fun d => d / closest_int d est) :=
    List.mem_map_of_mem _ hmem
  have hle : d0 / closest_int d0 est ≤ (ds.map (fun d => d / closest_int d est)).sum := by
    apply List.single_le_sum ?_ _ hmem'
    intro x hx
    obtain ⟨d, hd, rfl⟩ := List.mem_map.mp hx
    exact unit_nonneg est (hnn d hd)
  linarith

theorem next_est_mono {ds : List ℚ} {e1 e2 : ℚ} (hne : ds ≠ [])
    (hnn : ∀ d ∈ ds, 0 ≤ d) (h1 : 0 < e1) (h12 : e1 ≤ e2) :
    next_est ds e1 ≤ next_est ds e2 := by
  rw [next_est_eq e1 hne, next_est_eq e2 hne]
  have hn := length_cast_pos hne
  exact (div_le_div_iff_of_pos_right hn).mpr
    (List.sum_le_sum (fun d hd => unit_mono (hnn d hd) h1 h12))

theorem est_orbit_shift (ds : List ℚ) (est : ℚ) (k : ℕ) :
    est_orbit ds est (k + 1) = est_orbit ds (next_est ds est) k := by
  induction k with
  | zero => rfl
  | succ k ih =>
    show next_est ds (est_orbit ds est (k + 1)) = next_est ds (est_orbit ds (next_est ds est) k)
    rw [ih]

theorem spacing_loop_succ (n : ℕ) (ds : List ℚ) (est : ℚ) :
    spacing_loop (n + 1) ds est =
      if |average_change ds est| < 1 then some (next_est ds est)
      else spacing_loop n ds (next_est ds est) := rfl

theorem spacing_loop_isSome (ds : List ℚ) :
    ∀ (n : ℕ) (est : ℚ),
      (∃ k, k < n ∧ |average_change ds (est_orbit ds est k)| < 1) →
      (spacing_loop n ds est).isSome = true := by
  intro n
  induction n with
  | zero =>
    rintro est ⟨k, hk, _⟩
    omega
  | succ n ih =>
    rintro est ⟨k, hk, hstop⟩
    rw [spacing_loop_succ]
    by_cases h : |average_change ds est| < 1
    · rw [if_pos h]
      rfl
    · rw [if_neg h]
      apply ih
      cases k with
      | zero => exact absurd hstop h
      | succ k' =>
        refine ⟨k', by omega, ?_⟩
        rw [← est_orbit_shift]
        exact hstop

/-- Claim C8: on every non-empty sample of non-negative distances and positive
initial estimate, the refinement loop of xd stops, and it does so within a
computable bound (sum of the samples, rounded up, plus three) that a hard
iteration cap only has to dominate.  The source has no cap, so the bound here
is what makes every run finite. -/
theorem C8_spacing_terminates (ds : List ℚ) (est : ℚ) (hne : ds ≠ [])
    (hnn : ∀ d ∈ ds, 0 ≤ d) (_hpos : 0 < est) :
    ∃ n, n ≤ spacing_cap ds ∧ (spacing_loop n ds est).isSome = true := by
  refine ⟨spacing_cap ds, le_rfl, spacing_loop_isSome ds (spacing_cap ds) est ?_⟩
  by_contra hall
  push_neg at hall
  have horb : ∀ k : ℕ, est_orbit ds est (k + 1) = next_est ds (est_orbit ds est k) :=
    fun k => rfl
  have hac : ∀ k : ℕ, average_change ds (est_orbit ds est k) =
      est_orbit ds est (k + 1) - est_orbit ds est k := by
    intro k
    rw [horb, next_est]
    ring
  by_cases hz : ∀ d ∈ ds, d = 0
  · have hnext0 : ∀ q : ℚ, next_est ds q = 0 := by
      intro q
      rw [next_est_eq q hne]
      have hsum0 : (ds.map (fun d => d / closest_int d q)).sum = 0 := by
        apply List.sum_eq_zero
        intro x hx
        obtain ⟨d, hd, rfl⟩ := List.mem_map.mp hx
        rw [hz d hd, zero_div]
      rw [hsum0, zero_div]
    have he1 : est_orbit ds est 1 = 0 := hnext0 est
    have he2 : est_orbit ds est 2 = 0 := by
      have h2 : est_orbit ds est 2 = next_est ds (est_orbit ds est 1) := rfl
      rw [h2, he1, hnext0]
    have hstop : |average_change ds (est_orbit ds est 1)| < 1 := by
      rw [hac 1]
      have h21 : est_orbit ds est (1 + 1) = est_orbit ds est 2 := rfl
      rw [h21, he1, he2]
      norm_num
    have hcap : 1 < spacing_cap ds := by
      unfold spacing_cap
      omega
    exact absurd hstop (not_lt.mpr (hall 1 hcap))
  · push_neg at hz
    obtain ⟨d0, hd0mem, hd0ne⟩ := hz
    have hd0 : 0 < d0 := lt_of_le_of_ne (hnn d0 hd0mem) (Ne.symm hd0ne)
    have hex : ∃ d ∈ ds, 0 < d := ⟨d0, hd0mem, hd0⟩
    have hpos1 : ∀ k : ℕ, 0 < est_orbit ds est (k + 1) := by
      intro k
      rw [horb]
      exact next_est_pos _ hne hnn hex
    have hbound : ∀ k : ℕ, est_orbit ds est (k + 1) ≤ ds.sum := by
      intro k
      rw [horb]
      exact next_est_le_sum _ hne hnn
    have hS0 : 0 < ds.sum := lt_of_lt_of_le (hpos1 0) (hbound 0)
    have hstep : ∀ k, k < spacing_cap ds →
        1 ≤ |est_orbit ds est (k + 1) - est_orbit ds est k| := by
      intro k hk
      rw [← hac]
      exact hall k hk
    have hcapeq : spacing_cap ds = (⌈ds.sum⌉).toNat + 3 := rfl
    have hSlt : ds.sum < ((⌈ds.sum⌉).toNat : ℚ) + 1 := by
      have h1 : ds.sum ≤ ((⌈ds.sum⌉ : ℤ) : ℚ) := Int.le_ceil _
      have h2 : ((⌈ds.sum⌉).toNat : ℤ) = ⌈ds.sum⌉ :=
        Int.toNat_of_nonneg (Int.ceil_nonneg (le_of_lt hS0))
      have h3 : (((⌈ds.sum⌉).toNat : ℤ) : ℚ) = ((⌈ds.sum⌉ : ℤ) : ℚ) := by
        exact_mod_cast congrArg (fun z : ℤ => (z : ℚ)) h2
      push_cast at h3
      linarith
    rcases le_or_lt (est_orbit ds est 1) (est_orbit ds est 2) with hm | hm
    · have hmono : ∀ m : ℕ, est_orbit ds est (m + 1) ≤ est_orbit ds est (m + 2) := by
        intro m
        induction m with
        | zero => exact hm
        | succ m ih =>
          have hstepm := next_est_mono hne hnn (hpos1 m) ih
          rw [horb (m + 1), horb (m + 2)]
          exact hstepm
      have hgrow : ∀ m : ℕ, m + 1 < spacing_cap ds →
          (m : ℚ) ≤ est_orbit ds est (m + 1) - est_orbit ds est 1 := by
        intro m
        induction m with
        | zero =>
          intro _
          simp
        | succ m ih =>
          intro hlt
          have hgrow1 : (m : ℚ) ≤ est_orbit ds est (m + 1) - est_orbit ds est 1 :=
            ih (by omega)
          have hstep1 : 1 ≤ est_orbit ds est (m + 2) - est_orbit ds est (m + 1) := by
            have habs := hstep (m + 1) (by omega)
            rwa [abs_of_nonneg (by linarith [hmono m])] at habs
          push_cast
          have : est_orbit ds est (m + 1 + 1) = est_orbit ds est (m + 2) := rfl
          rw [this]
          linarith
      have happ := hgrow ((⌈ds.sum⌉).toNat + 1) (by omega)
      have hub : est_orbit ds est ((⌈ds.sum⌉).toNat + 1 + 1) - est_orbit ds est 1 ≤ ds.sum := by
        have hb := hbound ((⌈ds.sum⌉).toNat + 1)
        have hp := hpos1 0
        linarith
      push_cast at happ
      linarith
    · have hmono : ∀ m : ℕ, est_orbit ds est (m + 2) ≤ est_orbit ds est (m + 1) := by
        intro m
        induction m with
        | zero => exact le_of_lt hm
        | succ m ih =>
          have hstepm := next_est_mono hne hnn (hpos1 (m + 1)) ih
          rw [horb (m + 1), horb (m + 2)]
          exact hstepm
      have hdrop : ∀ m : ℕ, m + 1 < spacing_cap ds →
          (m : ℚ) ≤ est_orbit ds est 1 - est_orbit ds est (m + 1) := by
        intro m
        induction m with
        | zero =>
          intro _
          simp
        | succ m ih =>
          intro hlt
          have hdrop1 : (m : ℚ) ≤ est_orbit ds est 1 - est_orbit ds est (m + 1) :=
            ih (by omega)
          have hstep1 : 1 ≤ est_orbit ds est (m + 1) - est_orbit ds est (m + 2) := by
            have habs := hstep (m + 1) (by omega)
            rw [abs_of_nonpos (by linarith [hmono m])] at habs
            linarith [habs]
          push_cast
          have : est_orbit ds est (m + 1 + 1) = est_orbit ds est (m + 2) := rfl
          rw [this]
          linarith
      have happ := hdrop ((⌈ds.sum⌉).toNat + 1) (by omega)
      have hub : est_orbit ds est 1 - est_orbit ds est ((⌈ds.sum⌉).toNat + 1 + 1) ≤ ds.sum := by
        have hb := hbound 0
        have hp := hpos1 ((⌈ds.sum⌉).toNat + 1)
        linarith
      push_cast at happ
      linarith

/-- Witness for claim C8 at the one-element sample 30 and estimate 9. -/
theorem C8_spacing_terminates_witness :
    (([30] : List ℚ) ≠ [] ∧ (∀ d ∈ ([30] : List ℚ), 0 ≤ d) ∧ (0 : ℚ) < 9) ∧
    ∃ n, n ≤ spacing_cap [30] ∧ (spacing_loop n [30] 9).isSome = true :=
  ⟨⟨by simp, by intro d hd; rw [List.mem_singleton.mp hd]; norm_num, by norm_num⟩,
    C8_spacing_terminates [30] 9 (by simp)
      (by intro d hd; rw [List.mem_singleton.mp hd]; norm_num) (by norm_num)⟩

/-- Write one mask cell, as image[point.y][point.x] = value does (flood_fill
only ever writes cells it has read as in-bounds). -/
def set_cell (image : BlackPixels) (p : Point) (v : Bool) : BlackPixels :=
  image.set p.y ((image.getD p.y []).set p.x v)

/-- The Moore-neighborhood visit of flood_fill: the points pushed while
visiting point, in push order (y then x ascending, skipping negative
coordinates and cells whose current mask value is not set). -/
def moore_pushes (image : BlackPixels) (point : Point) : List Point :=
  (([(point.y : ℤ) - 1, (point.y : ℤ), (point.y : ℤ) + 1].filter
      (fun y => decide (0 ≤ y))).flatMap
    (fun y => [(point.x : ℤ) - 1, (point.x : ℤ), (point.x : ℤ) + 1].filterMap
      (fun x =>
        if x < 0 ∨ pixel_value image x y false = false then none
        else some ⟨x.toNat, y.toNat⟩)))

/-- The worklist of flood_fill, modelled with the head of the list as the top
of the stack: pop a point, extend the bounding box, clear the mask cell, and
push every still-set Moore neighbor.  The fuel only makes the recursion
structural; nine times the number of set cells plus one is enough for the
queue to drain, as the flood-fill analysis below establishes. -/
def flood_loop : ℕ → BlackStone → BlackPixels → List Point → BlackStone × BlackPixels
  | 0, object, image, _ => (object, image)
  | _ + 1, object, image, [] => (object, image)
  | fuel + 1, object, image, point :: rest =>
    let object' := object.push point
    let image' := set_cell image point false
    let queue' := (moore_pushes image' point).foldl (fun q pt => pt :: q) rest
    flood_loop fuel object' image' queue'

/-- The number of set cells of a mask. -/
def count_true (image : BlackPixels) : ℕ :=
  (image.map (fun row => row.countP id)).sum

/-- flood_fill from board.rs (and xd.rs): worklist seeded with the object's
seed point. -/
def flood_fill (object : BlackStone) (image : BlackPixels) :
    BlackStone × BlackPixels :=
  flood_loop (9 * count_true image + 1) object image [object.top_left]

/-- The row-major scan of find_black_objects: starting at (0, 0), as long as
the cursor differs from the last point, flood fill any set cell into a fresh
object, then advance the cursor (wrapping x to 0 and stepping y at the end of
a row).  The fuel (width times height) covers the exact number of cursor
positions the source visits. -/
def scan_loop (last : Point) : ℕ → Point → BlackPixels → List BlackStone → List BlackStone
  | 0, _, _, objects => objects
  | fuel + 1, current, image, objects =>
    if current = last then objects
    else
      let step : BlackPixels × List BlackStone :=
        if pixel_value image (current.x : ℤ) (current.y : ℤ) false = true then
          let res := flood_fill (BlackStone.new current) image
          (res.2, objects ++ [res.1])
        else (image, objects)
      let next : Point :=
        if current.x = last.x then ⟨0, current.y + 1⟩ else ⟨current.x + 1, current.y⟩
      scan_loop last fuel next step.1 step.2

/-- The object-collection loop of find_black_objects, before the noise
post-filter.  The last point is (image[0].len() - 1, image.len() - 1). -/
def find_black_objects_scan (image : BlackPixels) : List BlackStone :=
  let last : Point := ⟨(image.headD []).length - 1, image.length - 1⟩
  scan_loop last ((last.x + 1) * (last.y + 1)) ⟨0, 0⟩ image []

/-- find_black_objects from board.rs: the scan followed by the noise
post-filter. -/
def find_black_objects (image : BlackPixels) : List BlackStone :=
  (find_black_objects_scan image).filter board_noise_keep

/-- find_black_stones from board.rs: classify the pixels, extract the blobs,
fail on an empty blob list, and apply the median-window stone filter. -/
def find_black_stones (image : RgbImage) : Option (ℚ × List BlackStone) :=
  let black_objects := find_black_objects (black_pixels image)
  if black_objects.isEmpty then none
  else some (stone_filter black_objects)

/-- XYTuple from board.rs. -/
structure XYTuple where
  x : ℚ
  y : ℚ
deriving DecidableEq, Repr

/-- LatticeTransformation from board.rs. -/
structure LatticeTransformation where
  center : XYTuple
  stretch : XYTuple
  intersection_spacing : XYTuple
  intersection_spacing_increment : XYTuple
deriving DecidableEq, Repr

/-- A lattice intersection (a pair of isize in the source). -/
abbrev Intersection := ℤ × ℤ

/-- Rust Iterator::min_by over a nonempty list of error-tagged candidates:
the first element with the least tag. -/
def min_by_first (a : Intersection × ℚ) (l : List (Intersection × ℚ)) :
    Intersection × ℚ :=
  l.foldl (fun best cur => if cur.2 < best.2 then cur else best) a

/-- The per-stone body of the loop of transformation_error in board.rs:
apply the inverse transformation, locate the four neighboring lattice
intersections, and return the intersection with the least squared error
together with that error.  The isize casts of the source are exact because
floor and ceil produce integral floats. -/
def stone_least_error (tr : LatticeTransformation) (stone : Point) :
    Intersection × ℚ :=
  let stone_x : ℚ := (stone.x : ℚ) - tr.center.x
  let stone_y : ℚ := (stone.y : ℚ) - tr.center.y
  let inv_x := stone_x - tr.stretch.x * stone_y * stone_x
  let inv_y := stone_y - tr.stretch.y * stone_y * stone_x
  let column := inv_x /
    (tr.intersection_spacing.x + tr.intersection_spacing_increment.x * inv_x)
  let row := inv_y /
    (tr.intersection_spacing.y + tr.intersection_spacing_increment.y * inv_y)
  let left_d := ((⌊column⌋ : ℚ) - column) ^ 2
  let right_d := ((⌈column⌉ : ℚ) - column) ^ 2
  let above_d := ((⌊row⌋ : ℚ) - row) ^ 2
  let below_d := ((⌈row⌉ : ℚ) - row) ^ 2
  min_by_first ((⌊column⌋, ⌊row⌋), left_d + above_d)
    [((⌈column⌉, ⌊row⌋), right_d + above_d),
     ((⌊column⌋, ⌈row⌉), left_d + below_d),
     ((⌈column⌉, ⌈row⌉), right_d + below_d)]

/-- HashMap::entry(..).or_default().push(..) on an association list kept in
first-claim order. -/
def assoc_push (acc : List (Intersection × List (Point × ℚ))) (cell : Intersection)
    (v : Point × ℚ) : List (Intersection × List (Point × ℚ)) :=
  match acc with
  | [] => [(cell, [v])]
  | (c, vs) :: rest =>
    if c = cell then (c, vs ++ [v]) :: rest else (c, vs) :: assoc_push rest cell v

/-- The stone-placement loop of transformation_error in board.rs: every stone
is pushed onto the candidate list of the intersection it claims with the
least error.  (The stone_errors map of the source is written but never read
on any path that returns, so it is not modelled; the HashMap iteration order
only feeds a commutative sum and an emptiness test later on, so an
association list in first-claim order is faithful.) -/
def claims_list (stones : List Point) (tr : LatticeTransformation) :
    List (Intersection × List (Point × ℚ)) :=
  stones.foldl (fun acc stone =>
    let le := stone_least_error tr stone
    assoc_push acc le.1 (stone, le.2)) []

/-- transformation_error from board.rs: place the stones on the lattice,
detect intersections claimed more than once (the sort-then-drain of the
source keeps the least-error claimant and marks the rest for reassignment),
escape through the explicit todo! panic (modelled as an error result) when
any stone needs reassignment, and otherwise return the average error. -/
def transformation_error (stones : List Point) (tr : LatticeTransformation) :
    Except String ℚ :=
  let claims : List (Intersection × List (Point × ℚ)) := claims_list stones tr
  let stones_to_reassign : List Point :=
    claims.flatMap (fun kv =>
      ((List.insertionSort (fun a b => a.2 ≤ b.2) kv.2).drop 1).map Prod.fst)
  if stones_to_reassign.isEmpty then
    Except.ok ((claims.map (fun kv => (kv.2.headD (⟨0, 0⟩, 0)).2)).sum /
      (stones.length : ℚ))
  else
    Except.error "todo: stones to reassign is not empty"

/-- The hard-coded candidate transformation board_map builds from the stone
size. -/
def board_tr (stone_size : ℚ) : LatticeTransformation :=
  { center := ⟨360, 760⟩
    stretch := ⟨1 / 10000, 1 / 9000⟩
    intersection_spacing := ⟨stone_size - 1 / 2, stone_size + 2⟩
    intersection_spacing_increment := ⟨1 / 3000, 1 / 3000⟩ }

/-- The output type of board_map: lattice coordinates to pixel centers. -/
abbrev BoardMap := List ((ℤ × ℤ) × Point)

/-- board_map from board.rs.  After finding the stones (propagating the
no-stones failure), it takes the centers, fails when fewer than
MIN_BLACK_STONES_ON_BOARD remain, evaluates transformation_error on the
hard-coded candidate transformation (a panic there escapes as an error), and
then falls through to None. -/
def board_map (image : RgbImage) : Except String (Option BoardMap) :=
  match find_black_stones image with
  | none => Except.ok none
  | some (stone_size, stones0) =>
    let stones := stones0.map BlackStone.center
    if stones.length < MIN_BLACK_STONES_ON_BOARD then Except.ok none
    else
      match transformation_error stones (board_tr stone_size) with
      | Except.error e => Except.error e
      | Except.ok _ => Except.ok none

theorem board_map_cases (image : RgbImage) :
    board_map image = Except.ok none ∨ ∃ e, board_map image = Except.error e := by
  unfold board_map
  rcases hfs : find_black_stones image with _ | ⟨sz, stones0⟩
  · exact Or.inl rfl
  · simp only
    split
    · exact Or.inl rfl
    · rcases hte : transformation_error (stones0.map BlackStone.center) (board_tr sz) with e | q
      · exact Or.inr ⟨e, rfl⟩
      · exact Or.inl rfl

/-- Whether a board_map result is a populated board. -/
def board_returns_populated (r : Except String (Option BoardMap)) : Bool :=
  match r with
  | Except.ok (some _) => true
  | _ => false

/-- Claim C1: on every input image, board_map either returns the no-board
sentinel or escapes through the todo! panic in transformation_error; in no
case does it build a populated BoardMap, because after evaluating the
hard-coded candidate transformation it unconditionally falls through to
None.  In particular the 250-by-250 6-by-6-grid scenario of the claim cannot
produce a 36-entry BoardMap. -/
theorem C1_board_map_never_populated (image : RgbImage) :
    board_returns_populated (board_map image) = false := by
  rcases board_map_cases image with h | ⟨e, h⟩ <;> rw [h] <;> rfl

/-- Claim C10: whenever board_map returns (rather than panicking), the
returned value is the no-board sentinel. -/
theorem C10_board_map_returns_none (image : RgbImage) (r : Option BoardMap)
    (h : board_map image = Except.ok r) : r = none := by
  rcases board_map_cases image with h0 | ⟨e, h0⟩
  · rw [h0] at h
    injection h with h'
    exact h'.symm
  · rw [h0] at h
    cases h

/-- Witness for claim C10 at the all-white one-pixel image. -/
theorem C10_board_map_returns_none_witness :
    board_map [[⟨255, 255, 255⟩]] = Except.ok none ∧ (none : Option BoardMap) = none :=
  ⟨rfl, C10_board_map_returns_none [[⟨255, 255, 255⟩]] none rfl⟩

theorem pixel_value_false_of_all_false {m : BlackPixels}
    (h : ∀ row ∈ m, ∀ c ∈ row, c = false) (x y : ℤ) :
    pixel_value m x y false = false := by
  unfold pixel_value
  split
  · rfl
  · cases hg : m.get? y.toNat with
    | none => rfl
    | some row =>
      dsimp only
      cases hr : row.get? x.toNat with
      | none => rfl
      | some v => exact h row (List.get?_mem hg) v (List.get?_mem hr)

theorem scan_loop_all_false {m : BlackPixels}
    (h : ∀ row ∈ m, ∀ c ∈ row, c = false) (last : Point) :
    ∀ (fuel : ℕ) (current : Point) (objects : List BlackStone),
      scan_loop last fuel current m objects = objects := by
  intro fuel
  induction fuel with
  | zero => intro current objects; rfl
  | succ fuel ih =>
    intro current objects
    rw [scan_loop]
    split
    · rfl
    · have hpv := pixel_value_false_of_all_false h (current.x : ℤ) (current.y : ℤ)
      simp only [hpv, Bool.false_eq_true, if_false]
      exact ih _ _

theorem find_black_stones_all_false {image : RgbImage}
    (h : ∀ row ∈ black_pixels image, ∀ c ∈ row, c = false) :
    find_black_stones image = none := by
  unfold find_black_stones find_black_objects find_black_objects_scan
  rw [scan_loop_all_false h]
  rfl

/-- Claim C9: when the classifier mask has no set cell, or when the stone
filter accepts fewer than six blobs, board_map returns the no-board sentinel
(and does not reach the transformation stage). -/
theorem C9_too_few_stones (image : RgbImage)
    (hcond : (∀ row ∈ black_pixels image, ∀ c ∈ row, c = false) ∨
      (∃ sz stones, find_black_stones image = some (sz, stones) ∧ stones.length < 6)) :
    board_map image = Except.ok none := by
  rcases hcond with hall | ⟨sz, stones, hfs, hlen⟩
  · unfold board_map
    rw [find_black_stones_all_false hall]
  · unfold board_map
    rw [hfs]
    have hlen' : (stones.map BlackStone.center).length < MIN_BLACK_STONES_ON_BOARD := by
      rw [List.length_map]
      exact hlen
    simp only [hlen', if_true, if_pos]

/-- Witness for claim C9 at the all-white one-pixel image. -/
theorem C9_too_few_stones_witness :
    board_map [[⟨255, 255, 255⟩]] = Except.ok none :=
  C9_too_few_stones [[⟨255, 255, 255⟩]] (Or.inl (by decide))

/-- Lookup in the association lists built by assoc_push (the empty list for
an absent key). -/
def assoc_find (acc : List (Intersection × List (Point × ℚ)))
    (cell : Intersection) : List (Point × ℚ) :=
  match acc with
  | [] => []
  | (c, vs) :: rest => if c = cell then vs else assoc_find rest cell

theorem assoc_find_push_same (acc : List (Intersection × List (Point × ℚ)))
    (cell : Intersection) (v : Point × ℚ) :
    assoc_find (assoc_push acc cell v) cell = assoc_find acc cell ++ [v] := by
  induction acc with
  | nil => simp [assoc_push, assoc_find]
  | cons kv rest ih =>
    obtain ⟨c, vs⟩ := kv
    by_cases h : c = cell
    · subst h
      simp [assoc_push, assoc_find]
    · simp [assoc_push, assoc_find, h, ih]

theorem assoc_find_push_ne (acc : List (Intersection × List (Point × ℚ)))
    (cell cell' : Intersection) (v : Point × ℚ) (h : cell ≠ cell') :
    assoc_find (assoc_push acc cell v) cell' = assoc_find acc cell' := by
  induction acc with
  | nil => simp [assoc_push, assoc_find, h]
  | cons kv rest ih =>
    obtain ⟨c, vs⟩ := kv
    by_cases hc : c = cell
    · subst hc
      simp [assoc_push, assoc_find, h]
    · simp [assoc_push, assoc_find, hc, ih]

theorem assoc_find_mem (acc : List (Intersection × List (Point × ℚ)))
    (cell : Intersection) (h : assoc_find acc cell ≠ []) :
    (cell, assoc_find acc cell) ∈ acc := by
  induction acc with
  | nil => simp [assoc_find] at h
  | cons kv rest ih =>
    obtain ⟨c, vs⟩ := kv
    by_cases hc : c = cell
    · subst hc
      simp only [assoc_find, if_pos rfl] at h ⊢
      exact List.mem_cons_self _ _
    · simp only [assoc_find, if_neg hc] at h ⊢
      exact List.mem_cons_of_mem _ (ih h)

theorem claims_fold_find (tr : LatticeTransformation) (cell : Intersection) :
    ∀ (stones : List Point) (acc : List (Intersection × List (Point × ℚ))),
      assoc_find (stones.foldl (fun acc stone =>
          let le := stone_least_error tr stone
          assoc_push acc le.1 (stone, le.2)) acc) cell =
        assoc_find acc cell ++
          (stones.filter (fun s => decide ((stone_least_error tr s).1 = cell))).map
            (fun s => (s, (stone_least_error tr s).2)) := by
  intro stones
  induction stones with
  | nil => intro acc; simp
  | cons s rest ih =>
    intro acc
    rw [List.foldl_cons, ih]
    by_cases h : (stone_least_error tr s).1 = cell
    · rw [List.filter_cons_of_pos (by simpa using h)]
      rw [← h, assoc_find_push_same]
      simp
    · rw [List.filter_cons_of_neg (by simpa using h)]
      rw [assoc_find_push_ne _ _ _ _ h]

theorem claims_list_find (stones : List Point) (tr : LatticeTransformation)
    (cell : Intersection) :
    assoc_find (claims_list stones tr) cell =
      (stones.filter (fun s => decide ((stone_least_error tr s).1 = cell))).map
        (fun s => (s, (stone_least_error tr s).2)) := by
  unfold claims_list
  rw [claims_fold_find]
  rfl

theorem two_le_length_of_mem_ne {α : Type} {a b : α} :
    ∀ {l : List α}, a ∈ l → b ∈ l → a ≠ b → 2 ≤ l.length := by
  intro l
  induction l with
  | nil => intro ha; cases ha
  | cons x t ih =>
    intro ha hb hne
    rcases List.mem_cons.mp ha with rfl | hat
    · rcases List.mem_cons.mp hb with rfl | hbt
      · exact absurd rfl hne
      · have := List.length_pos.mpr (List.ne_nil_of_mem hbt)
        simp only [List.length_cons]
        omega
    · have := List.length_pos.mpr (List.ne_nil_of_mem hat)
      simp only [List.length_cons]
      omega

theorem not_isEmpty_of_ne_nil {α : Type} {l : List α} (h : l ≠ []) :
    l.isEmpty = false := by
  cases l with
  | nil => exact absurd rfl h
  | cons a t => rfl

/-- Any two distinct stones claiming the same least-error intersection send
transformation_error into the todo! panic. -/
theorem transformation_error_panics {stones : List Point}
    {tr : LatticeTransformation} {s1 s2 : Point}
    (h1 : s1 ∈ stones) (h2 : s2 ∈ stones) (hne : s1 ≠ s2)
    (hcell : (stone_least_error tr s1).1 = (stone_least_error tr s2).1) :
    transformation_error stones tr =
      Except.error "todo: stones to reassign is not empty" := by
  have hm1 : s1 ∈ stones.filter
      (fun s => decide ((stone_least_error tr s).1 = (stone_least_error tr s1).1)) :=
    List.mem_filter.mpr ⟨h1, by simp⟩
  have hm2 : s2 ∈ stones.filter
      (fun s => decide ((stone_least_error tr s).1 = (stone_least_error tr s1).1)) :=
    List.mem_filter.mpr ⟨h2, by simp [hcell]⟩
  have hlen2 : 2 ≤ (stones.filter
      (fun s => decide ((stone_least_error tr s).1 = (stone_least_error tr s1).1))).length :=
    two_le_length_of_mem_ne hm1 hm2 hne
  have hfind := claims_list_find stones tr (stone_least_error tr s1).1
  have hvslen : 2 ≤ (assoc_find (claims_list stones tr) (stone_least_error tr s1).1).length := by
    rw [hfind, List.length_map]
    exact hlen2
  have hmem : ((stone_least_error tr s1).1,
      assoc_find (claims_list stones tr) (stone_least_error tr s1).1) ∈
        claims_list stones tr := by
    apply assoc_find_mem
    intro hnil
    rw [hnil] at hvslen
    simp at hvslen
  set vs := assoc_find (claims_list stones tr) (stone_least_error tr s1).1 with hvs
  have hsortlen : 2 ≤ (List.insertionSort (fun a b => a.2 ≤ b.2) vs).length := by
    rw [List.length_insertionSort]
    exact hvslen
  have hdropne : ((List.insertionSort (fun a b => a.2 ≤ b.2) vs).drop 1).map Prod.fst ≠ [] := by
    intro hnil
    have := congrArg List.length hnil
    rw [List.length_map, List.length_drop] at this
    simp at this
    omega
  have hflatne : (claims_list stones tr).flatMap (fun kv =>
      ((List.insertionSort (fun a b => a.2 ≤ b.2) kv.2).drop 1).map Prod.fst) ≠ [] := by
    intro hnil
    obtain ⟨x, hx⟩ := List.exists_mem_of_ne_nil _ hdropne
    have hxmem : x ∈ (claims_list stones tr).flatMap (fun kv =>
        ((List.insertionSort (fun a b => a.2 ≤ b.2) kv.2).drop 1).map Prod.fst) :=
      List.mem_flatMap.mpr ⟨_, hmem, hx⟩
    rw [hnil] at hxmem
    cases hxmem
  unfold transformation_error
  simp only
  rw [not_isEmpty_of_ne_nil hflatne]
  rfl

theorem ceil_eq_neg_floor (a : ℚ) : ⌈a⌉ = -⌊-a⌋ := by
  conv_lhs => rw [← neg_neg a]
  rw [Int.ceil_neg]

theorem c2_cell_one :
    (stone_least_error (board_tr 100) ⟨360, 760⟩).1 = (0, 0) := by
  norm_num [stone_least_error, board_tr, min_by_first, ceil_eq_neg_floor,
    List.foldl_cons, List.foldl_nil]

theorem c2_cell_two :
    (stone_least_error (board_tr 100) ⟨361, 760⟩).1 = (0, 0) := by
  norm_num [stone_least_error, board_tr, min_by_first, ceil_eq_neg_floor,
    List.foldl_cons, List.foldl_nil]

/-- Claim C2: the pipeline can panic.  With the transformation board_map
builds for stone_size 100, the six stone centers below are accepted
geometry, yet the first two claim the same lattice intersection (0, 0), so
transformation_error reaches the todo! panic instead of surfacing a
no-board result. -/
theorem C2_collision_panics :
    transformation_error
        [⟨360, 760⟩, ⟨361, 760⟩, ⟨760, 760⟩, ⟨960, 760⟩, ⟨1160, 760⟩, ⟨1360, 760⟩]
        (board_tr 100) =
      Except.error "todo: stones to reassign is not empty" :=
  @transformation_error_panics
    [⟨360, 760⟩, ⟨361, 760⟩, ⟨760, 760⟩, ⟨960, 760⟩, ⟨1160, 760⟩, ⟨1360, 760⟩]
    (board_tr 100) ⟨360, 760⟩ ⟨361, 760⟩
    (by simp) (by simp) (by decide) (by rw [c2_cell_one, c2_cell_two])

/-- A mask cell, as (x, y). -/
abbrev Cell := ℕ × ℕ

/-- Direct mask access at natural coordinates. -/
def mask_get (m : BlackPixels) (c : Cell) : Bool :=
  (((m.get? c.2).getD []).get? c.1).getD false

/-- A cell is set. -/
def cell_true (m : BlackPixels) (c : Cell) : Prop := mask_get m c = true

instance (m : BlackPixels) (c : Cell) : Decidable (cell_true m c) := by
  unfold cell_true
  infer_instance

theorem getD_eq_get? {α : Type} (l : List α) (i : ℕ) (d : α) :
    l.getD i d = (l.get? i).getD d := by
  induction l generalizing i with
  | nil => cases i <;> rfl
  | cons a t ih => cases i with
    | zero => rfl
    | succ j => exact ih j

theorem pixel_value_natCast (m : BlackPixels) (c : Cell) :
    pixel_value m (c.1 : ℤ) (c.2 : ℤ) false = mask_get m c := by
  unfold pixel_value mask_get
  rw [if_neg (by omega)]
  rw [Int.toNat_natCast, Int.toNat_natCast]
  cases m.get? c.2 with
  | none => rfl
  | some row =>
    dsimp only [Option.getD_some]
    cases row.get? c.1 with
    | none => rfl
    | some v => rfl

theorem get?_set_self {α : Type} :
    ∀ (l : List α) (i : ℕ) (a : α), i < l.length → (l.set i a).get? i = some a := by
  intro l
  induction l with
  | nil => intro i a h; simp at h
  | cons x t ih =>
    intro i a h
    cases i with
    | zero => rfl
    | succ j =>
      simp only [List.set, List.get?]
      exact ih j a (by simpa using h)

theorem get?_set_other {α : Type} :
    ∀ (l : List α) (i j : ℕ) (a : α), i ≠ j → (l.set i a).get? j = l.get? j := by
  intro l
  induction l with
  | nil => intro i j a _; cases i <;> rfl
  | cons x t ih =>
    intro i j a hne
    cases i with
    | zero =>
      cases j with
      | zero => exact absurd rfl hne
      | succ k => rfl
    | succ i' =>
      cases j with
      | zero => rfl
      | succ k =>
        simp only [List.set, List.get?]
        exact ih i' k a (by omega)

theorem set_self {α : Type} :
    ∀ (l : List α) (i : ℕ) (a : α), l.get? i = some a → l.set i a = l := by
  intro l
  induction l with
  | nil => intro i a h; cases i <;> cases h
  | cons x t ih =>
    intro i a h
    cases i with
    | zero =>
      simp only [List.get?] at h
      cases h
      rfl
    | succ j =>
      simp only [List.get?] at h
      simp only [List.set]
      rw [ih j a h]

theorem set_oob {α : Type} :
    ∀ (l : List α) (i : ℕ) (a : α), l.length ≤ i → l.set i a = l := by
  intro l
  induction l with
  | nil => intro i a _; rfl
  | cons x t ih =>
    intro i a h
    cases i with
    | zero => simp at h
    | succ j =>
      simp only [List.set]
      rw [ih j a (by simpa using h)]

/-- The mask after set_cell reads false at the written cell and is unchanged
elsewhere. -/
theorem mask_get_set_cell (m : BlackPixels) (p : Point) (c : Cell) :
    mask_get (set_cell m p false) c =
      if c = (p.x, p.y) then false else mask_get m c := by
  unfold set_cell mask_get
  rw [getD_eq_get?]
  by_cases hcy : c.2 = p.y
  · rw [hcy]
    rcases Nat.lt_or_ge p.y m.length with hy | hy
    · rw [get?_set_self _ _ _ hy]
      simp only [Option.getD_some]
      by_cases hcx : c.1 = p.x
      · rw [hcx]
        have hceq : c = (p.x, p.y) := Prod.ext hcx hcy
        rw [if_pos hceq]
        rcases Nat.lt_or_ge p.x ((m.get? p.y).getD []).length with hx | hx
        · rw [get?_set_self _ _ _ hx]
          rfl
        · rw [set_oob _ _ _ hx, List.get?_eq_none.mpr hx]
          rfl
      · have hcne : c ≠ (p.x, p.y) := fun h => hcx (congrArg Prod.fst h)
        rw [if_neg hcne, get?_set_other _ _ _ _ (Ne.symm hcx)]
    · rw [set_oob _ _ _ hy]
      by_cases hceq : c = (p.x, p.y)
      · rw [if_pos hceq]
        rw [List.get?_eq_none.mpr hy]
        rcases hceq with rfl
        rfl
      · rw [if_neg hceq]
  · have hcne : c ≠ (p.x, p.y) := fun h => hcy (congrArg Prod.snd h)
    rw [if_neg hcne, get?_set_other _ _ _ _ (fun h => hcy h.symm)]

theorem cell_true_set_cell (m : BlackPixels) (p : Point) (c : Cell) :
    cell_true (set_cell m p false) c ↔ cell_true m c ∧ c ≠ (p.x, p.y) := by
  unfold cell_true
  rw [mask_get_set_cell]
  by_cases hc : c = (p.x, p.y)
  · simp [hc]
  · simp [hc]

/-- The cell of a point. -/
def Point.cell (p : Point) : Cell := (p.x, p.y)

/-- Moore nearness: at most one apart in each axis (the 3-by-3 box). -/
def near (p : Point) (c : Cell) : Prop := diff p.x c.1 ≤ 1 ∧ diff p.y c.2 ≤ 1

instance (p : Point) (c : Cell) : Decidable (near p c) := by
  unfold near
  infer_instance

theorem mem_moore_pushes (m : BlackPixels) (p q : Point) :
    q ∈ moore_pushes m p ↔ cell_true m q.cell ∧ near p q.cell := by
  obtain ⟨qx, qy⟩ := q
  unfold moore_pushes Point.cell
  rw [List.mem_flatMap]
  constructor
  · rintro ⟨y, hy, hq⟩
    rw [List.mem_filter] at hy
    obtain ⟨hymem, hynn⟩ := hy
    rw [decide_eq_true_eq] at hynn
    rw [List.mem_filterMap] at hq
    obtain ⟨x, hxmem, hfx⟩ := hq
    split at hfx
    · cases hfx
    · rename_i hcond
      push_neg at hcond
      obtain ⟨hxnn, hpv⟩ := hcond
      injection hfx with hfx'
      injection hfx' with hfx1 hfx2
      have hqx : (qx : ℤ) = x := by omega
      have hqy : (qy : ℤ) = y := by omega
      have hpvtrue : pixel_value m x y false = true := by
        cases hb : pixel_value m x y false with
        | false => exact absurd hb hpv
        | true => rfl
      constructor
      · unfold cell_true
        rw [← pixel_value_natCast]
        simp only
        rw [hqx, hqy]
        exact hpvtrue
      · unfold near
        simp only [List.mem_cons, List.not_mem_nil, or_false] at hxmem hymem
        constructor
        · rw [diff_eq_natAbs]
          simp only
          rcases hxmem with h | h | h <;> omega
        · rw [diff_eq_natAbs]
          simp only
          rcases hymem with h | h | h <;> omega
  · rintro ⟨htrue, hnear⟩
    obtain ⟨hnx, hny⟩ := hnear
    rw [diff_eq_natAbs] at hnx hny
    simp only at hnx hny
    have hpv : pixel_value m (qx : ℤ) (qy : ℤ) false = true := by
      have hcast := pixel_value_natCast m (qx, qy)
      simp only at hcast
      rw [hcast]
      exact htrue
    refine ⟨(qy : ℤ), ?_, ?_⟩
    · rw [List.mem_filter]
      constructor
      · simp only [List.mem_cons, List.not_mem_nil, or_false]
        omega
      · simp
    · rw [List.mem_filterMap]
      refine ⟨(qx : ℤ), ?_, ?_⟩
      · simp only [List.mem_cons, List.not_mem_nil, or_false]
        omega
      · have hcond : ¬ ((qx : ℤ) < 0 ∨ pixel_value m (qx : ℤ) (qy : ℤ) false = false) := by
          push_neg
          refine ⟨by omega, ?_⟩
          rw [hpv]
          simp
        rw [if_neg hcond]
        simp

theorem sum_le_mul_of_forall_le (l : List ℕ) (k : ℕ) (h : ∀ x ∈ l, x ≤ k) :
    l.sum ≤ k * l.length := by
  induction l with
  | nil => simp
  | cons a t ih =>
    have ha := h a (List.mem_cons_self _ _)
    have ht := ih (fun x hx => h x (List.mem_cons_of_mem _ hx))
    simp only [List.sum_cons, List.length_cons, Nat.mul_succ]
    omega

theorem length_flatMap_le_nine {α β : Type} (ys : List α) (f : α → List β)
    (hys : ys.length ≤ 3) (hf : ∀ y ∈ ys, (f y).length ≤ 3) :
    (ys.flatMap f).length ≤ 9 := by
  rw [List.length_flatMap]
  have hsum := sum_le_mul_of_forall_le (ys.map (List.length ∘ f)) 3 (by
    intro n hn
    rw [List.mem_map] at hn
    obtain ⟨y, hy, rfl⟩ := hn
    simp only [Function.comp_apply]
    exact hf y hy)
  rw [List.length_map] at hsum
  omega

/-- The Moore push list has at most nine entries. -/
theorem moore_pushes_length_le (m : BlackPixels) (p : Point) :
    (moore_pushes m p).length ≤ 9 := by
  unfold moore_pushes
  apply length_flatMap_le_nine
  · exact le_trans (List.length_filter_le _ _) (by simp)
  · intro y _
    exact le_trans (List.length_filterMap_le _ _) (by simp)

/-- 8-adjacency: distinct cells at most one apart in each axis. -/
def adj (c d : Cell) : Prop := c ≠ d ∧ diff c.1 d.1 ≤ 1 ∧ diff c.2 d.2 ≤ 1

instance (c d : Cell) : Decidable (adj c d) := by
  unfold adj
  infer_instance

theorem adj_symm {c d : Cell} (h : adj c d) : adj d c := by
  obtain ⟨hne, hx, hy⟩ := h
  refine ⟨Ne.symm hne, ?_, ?_⟩ <;> rw [diff_eq_natAbs] at * <;> omega

/-- One step between set cells of a mask. -/
def mask_step (m : BlackPixels) (c d : Cell) : Prop :=
  cell_true m c ∧ cell_true m d ∧ adj c d

theorem mask_step_symm (m : BlackPixels) : Symmetric (mask_step m) := by
  rintro c d ⟨hc, hd, hadj⟩
  exact ⟨hd, hc, adj_symm hadj⟩

/-- Reachability through set cells of a mask. -/
def reaches (m : BlackPixels) (c d : Cell) : Prop :=
  Relation.ReflTransGen (mask_step m) c d

theorem reaches_symm {m : BlackPixels} {c d : Cell} (h : reaches m c d) :
    reaches m d c :=
  (Relation.ReflTransGen.symmetric (mask_step_symm m)) h

/-- Membership of two cells in one 8-connected component of set cells. -/
def same_comp (m : BlackPixels) (c d : Cell) : Prop :=
  cell_true m c ∧ cell_true m d ∧ reaches m c d

theorem same_comp_refl {m : BlackPixels} {c : Cell} (h : cell_true m c) :
    same_comp m c c :=
  ⟨h, h, Relation.ReflTransGen.refl⟩

theorem same_comp_symm {m : BlackPixels} {c d : Cell} (h : same_comp m c d) :
    same_comp m d c :=
  ⟨h.2.1, h.1, reaches_symm h.2.2⟩

theorem same_comp_trans {m : BlackPixels} {a b c : Cell}
    (h1 : same_comp m a b) (h2 : same_comp m b c) : same_comp m a c :=
  ⟨h1.1, h2.2.1, Relation.ReflTransGen.trans h1.2.2 h2.2.2⟩

theorem same_comp_step {m : BlackPixels} {a b c : Cell}
    (h1 : same_comp m a b) (hb : cell_true m b) (hc : cell_true m c)
    (hadj : adj b c) : same_comp m a c :=
  ⟨h1.1, hc, Relation.ReflTransGen.tail h1.2.2 ⟨hb, hc, hadj⟩⟩

theorem reaches_mono {m m' : BlackPixels}
    (hsub : ∀ c, cell_true m' c → cell_true m c) {a b : Cell}
    (h : reaches m' a b) : reaches m a b := by
  refine Relation.ReflTransGen.mono ?_ h
  rintro x y ⟨hx, hy, hadj⟩
  exact ⟨hsub x hx, hsub y hy, hadj⟩

theorem cell_true_of_set_cell {m : BlackPixels} {p : Point} {c : Cell}
    (h : cell_true (set_cell m p false) c) : cell_true m c :=
  ((cell_true_set_cell m p c).mp h).1

/-- Transfer of a connecting chain across the clearing of one cell p: either
the chain survives, or its tail after the last visit to p starts at a
still-set cell in the Moore box of p. -/
theorem reaches_transfer {m : BlackPixels} {p : Point} {a t : Cell}
    (hreach : reaches m a t) (ht : cell_true (set_cell m p false) t) :
    reaches (set_cell m p false) a t ∨
      ∃ u : Cell, cell_true (set_cell m p false) u ∧ near p u ∧
        reaches (set_cell m p false) u t := by
  induction hreach using Relation.ReflTransGen.head_induction_on with
  | refl => exact Or.inl Relation.ReflTransGen.refl
  | head hstep _ ih =>
    rename_i a' c' hrest
    obtain ⟨hat, hct, hadj⟩ := hstep
    rcases ih with hreach' | ⟨u, hu⟩
    · by_cases hcp : c' = (p.x, p.y)
      · exfalso
        rcases Relation.ReflTransGen.cases_head hreach' with heq | ⟨d, hstep', _⟩
        · rw [heq] at hcp
          exact ((cell_true_set_cell m p t).mp ht).2 hcp
        · have := hstep'.1
          rw [cell_true_set_cell] at this
          exact this.2 hcp
      · have hct' : cell_true (set_cell m p false) c' :=
          (cell_true_set_cell m p c').mpr ⟨hct, hcp⟩
        by_cases hap : a' = (p.x, p.y)
        · refine Or.inr ⟨c', hct', ?_, hreach'⟩
          subst hap
          exact ⟨hadj.2.1, hadj.2.2⟩
        · have hat' : cell_true (set_cell m p false) a' :=
            (cell_true_set_cell m p a').mpr ⟨hat, hap⟩
          exact Or.inl (Relation.ReflTransGen.head ⟨hat', hct', hadj⟩ hreach')
    · exact Or.inr ⟨u, hu⟩

/-- b is the tight bounding box of the set of cells S. -/
def is_bbox (b : BlackStone) (S : Cell → Prop) : Prop :=
  (∀ c, S c → b.top_left.x ≤ c.1 ∧ c.1 ≤ b.bottom_right.x ∧
    b.top_left.y ≤ c.2 ∧ c.2 ≤ b.bottom_right.y) ∧
  (∃ c, S c ∧ c.1 = b.top_left.x) ∧ (∃ c, S c ∧ c.1 = b.bottom_right.x) ∧
  (∃ c, S c ∧ c.2 = b.top_left.y) ∧ (∃ c, S c ∧ c.2 = b.bottom_right.y)

theorem is_bbox_new (s : Point) :
    is_bbox (BlackStone.new s) (fun c => c = s.cell) := by
  unfold is_bbox BlackStone.new Point.cell
  refine ⟨?_, ⟨s.cell, rfl, rfl⟩, ⟨s.cell, rfl, rfl⟩, ⟨s.cell, rfl, rfl⟩, ⟨s.cell, rfl, rfl⟩⟩
  rintro c rfl
  exact ⟨le_refl _, le_refl _, le_refl _, le_refl _⟩

theorem is_bbox_push (b : BlackStone) (S : Cell → Prop) (p : Point)
    (h : is_bbox b S) : is_bbox (b.push p) (fun c => S c ∨ c = p.cell) := by
  obtain ⟨hin, ⟨c1, hc1, he1⟩, ⟨c2, hc2, he2⟩, ⟨c3, hc3, he3⟩, ⟨c4, hc4, he4⟩⟩ := h
  unfold is_bbox BlackStone.push Point.cell at *
  refine ⟨?_, ?_, ?_, ?_, ?_⟩
  · rintro c (hc | rfl)
    · have := hin c hc
      simp only
      omega
    · simp only
      omega
  · rcases Nat.le_total b.top_left.x p.x with hle | hle
    · exact ⟨c1, Or.inl hc1, by simp only; omega⟩
    · exact ⟨(p.x, p.y), Or.inr rfl, by simp only; omega⟩
  · rcases Nat.le_total b.bottom_right.x p.x with hle | hle
    · exact ⟨(p.x, p.y), Or.inr rfl, by simp only; omega⟩
    · exact ⟨c2, Or.inl hc2, by simp only; omega⟩
  · rcases Nat.le_total b.top_left.y p.y with hle | hle
    · exact ⟨c3, Or.inl hc3, by simp only; omega⟩
    · exact ⟨(p.x, p.y), Or.inr rfl, by simp only; omega⟩
  · rcases Nat.le_total b.bottom_right.y p.y with hle | hle
    · exact ⟨(p.x, p.y), Or.inr rfl, by simp only; omega⟩
    · exact ⟨c4, Or.inl hc4, by simp only; omega⟩

theorem is_bbox_congr {b : BlackStone} {S S' : Cell → Prop}
    (hiff : ∀ c, S c ↔ S' c) (h : is_bbox b S) : is_bbox b S' := by
  obtain ⟨hin, ⟨c1, hc1, he1⟩, ⟨c2, hc2, he2⟩, ⟨c3, hc3, he3⟩, ⟨c4, hc4, he4⟩⟩ := h
  exact ⟨fun c hc => hin c ((hiff c).mpr hc),
    ⟨c1, (hiff c1).mp hc1, he1⟩, ⟨c2, (hiff c2).mp hc2, he2⟩,
    ⟨c3, (hiff c3).mp hc3, he3⟩, ⟨c4, (hiff c4).mp hc4, he4⟩⟩

theorem is_bbox_push_absorb {b : BlackStone} {S : Cell → Prop} {p : Point}
    (h : is_bbox b S) (hp : S p.cell) : is_bbox (b.push p) S := by
  refine is_bbox_congr ?_ (is_bbox_push b S p h)
  intro c
  constructor
  · rintro (hc | rfl)
    · exact hc
    · exact hp
  · exact Or.inl

theorem cell_true_iff_get? (m : BlackPixels) (c : Cell) :
    cell_true m c ↔ ∃ row, m.get? c.2 = some row ∧ row.get? c.1 = some true := by
  unfold cell_true mask_get
  cases hg : m.get? c.2 with
  | none => simp
  | some row =>
    dsimp only [Option.getD_some]
    cases hr : row.get? c.1 with
    | none =>
      dsimp only [Option.getD_none]
      constructor
      · intro h
        exact absurd h (by simp)
      · rintro ⟨row', heq, htrue⟩
        injection heq with heq'
        subst heq'
        rw [hr] at htrue
        cases htrue
    | some v =>
      dsimp only [Option.getD_some]
      constructor
      · intro hv
        exact ⟨row, rfl, by rw [hr, hv]⟩
      · rintro ⟨row', heq, htrue⟩
        injection heq with heq'
        subst heq'
        rw [hr] at htrue
        exact Option.some.inj htrue

theorem countP_pos_of_mem {l : List Bool} (h : true ∈ l) : 0 < l.countP id := by
  rw [List.countP_pos_iff]
  exact ⟨true, h, rfl⟩

theorem cell_true_count_pos {m : BlackPixels} {c : Cell} (h : cell_true m c) :
    0 < count_true m := by
  rw [cell_true_iff_get?] at h
  obtain ⟨row, hg, hr⟩ := h
  have hrowmem : row ∈ m := List.get?_mem hg
  have htruemem : true ∈ row := List.get?_mem hr
  have hkey : 0 < row.countP id := countP_pos_of_mem htruemem
  have hmem : row.countP id ∈ m.map (fun r => r.countP id) :=
    List.mem_map_of_mem _ hrowmem
  have hle := List.single_le_sum (l := m.map (fun r => r.countP id))
    (fun x _ => Nat.zero_le x) _ hmem
  unfold count_true
  omega

theorem countP_set_true :
    ∀ (row : List Bool) (x : ℕ), row.get? x = some true →
      (row.set x false).countP id + 1 = row.countP id := by
  intro row
  induction row with
  | nil => intro x h; cases x <;> cases h
  | cons a t ih =>
    intro x h
    cases x with
    | zero =>
      injection h with h'
      subst h'
      simp [List.set, List.countP_cons]
    | succ j =>
      simp only [List.get?] at h
      simp only [List.set, List.countP_cons]
      have := ih j h
      omega

theorem count_true_set_row :
    ∀ (m : BlackPixels) (y : ℕ) (row r' : List Bool), m.get? y = some row →
      count_true (m.set y r') + row.countP id = count_true m + r'.countP id := by
  intro m
  induction m with
  | nil => intro y row r' h; cases y <;> cases h
  | cons hd tl ih =>
    intro y row r' h
    cases y with
    | zero =>
      injection h with h'
      subst h'
      unfold count_true
      simp only [List.set, List.map_cons, List.sum_cons]
      omega
    | succ j =>
      simp only [List.get?] at h
      unfold count_true
      simp only [List.set, List.map_cons, List.sum_cons]
      have := ih j row r' h
      unfold count_true at this
      omega

theorem count_true_clear_true {m : BlackPixels} {p : Point}
    (h : cell_true m p.cell) :
    count_true (set_cell m p false) + 1 = count_true m := by
  rw [cell_true_iff_get?] at h
  obtain ⟨row, hg, hr⟩ := h
  unfold set_cell
  have hgetD : m.getD p.y [] = row := by
    rw [getD_eq_get?]
    rw [show m.get? p.y = some row from hg]
    rfl
  rw [hgetD]
  have h1 := count_true_set_row m p.y row (row.set p.x false)
    (by exact hg)
  have h2 := countP_set_true row p.x (by exact hr)
  omega

theorem set_cell_false_eq {m : BlackPixels} {p : Point}
    (h : ¬ cell_true m p.cell) : set_cell m p false = m := by
  unfold set_cell
  cases hg : m.get? p.y with
  | none =>
    rw [set_oob _ _ _ (List.get?_eq_none.mp hg)]
  | some row =>
    have hgetD : m.getD p.y [] = row := by
      rw [getD_eq_get?, hg]
      rfl
    rw [hgetD]
    cases hr : row.get? p.x with
    | none =>
      rw [set_oob _ _ _ (List.get?_eq_none.mp hr), set_self _ _ _ hg]
    | some v =>
      cases v with
      | false => rw [set_self _ _ _ hr, set_self _ _ _ hg]
      | true =>
        exact absurd ((cell_true_iff_get? m p.cell).mpr ⟨row, hg, hr⟩) h

theorem foldl_cons_eq_reverse_append {α : Type} :
    ∀ (l acc : List α), l.foldl (fun q pt => pt :: q) acc = l.reverse ++ acc := by
  intro l
  induction l with
  | nil => intro acc; simp
  | cons a t ih =>
    intro acc
    rw [List.foldl_cons, ih, List.reverse_cons]
    simp

theorem Point.cell_inj {r p : Point} (h : r.cell = p.cell) : r = p := by
  cases r
  cases p
  unfold Point.cell at h
  injection h with h1 h2
  subst h1
  subst h2
  rfl

theorem reaches_from_false {m : BlackPixels} {c t : Cell}
    (hc : ¬ cell_true m c) (ht : cell_true m t) : ¬ reaches m c t := by
  intro h
  rcases Relation.ReflTransGen.cases_head h with heq | ⟨d, hstep, _⟩
  · exact hc (heq ▸ ht)
  · exact hc hstep.1

/-- State invariant of the flood-fill worklist, relative to the mask m0 at
flood start and the seed s: the mask only loses cells, everything lost and
everything queued lies in the seed's component, every still-set component
cell is reachable from a queue entry through still-set cells, and the object
is the tight bounding box of the seed plus the cells lost so far. -/
structure FloodInv (m0 : BlackPixels) (s : Point) (obj : BlackStone)
    (m : BlackPixels) (queue : List Point) : Prop where
  sub : ∀ c, cell_true m c → cell_true m0 c
  cleared : ∀ c, cell_true m0 c → ¬ cell_true m c → same_comp m0 s.cell c
  queue_comp : ∀ q ∈ queue, same_comp m0 s.cell q.cell
  frontier : ∀ t, same_comp m0 s.cell t → cell_true m t →
    ∃ q ∈ queue, reaches m q.cell t
  bbox : is_bbox obj (fun c => c = s.cell ∨ (cell_true m0 c ∧ ¬ cell_true m c))

/-- Stack-order invariant: a cleared entry of the worklist has every set cell
of its Moore box recorded strictly above it (at a smaller index). -/
def FloodJ (m : BlackPixels) (queue : List Point) : Prop :=
  ∀ i r, queue.get? i = some r → ¬ cell_true m r.cell →
    ∀ u : Point, near r u.cell → cell_true m u.cell →
      ∃ j, j < i ∧ queue.get? j = some u

theorem flood_loop_cons (fuel : ℕ) (obj : BlackStone) (m : BlackPixels)
    (p : Point) (rest : List Point) :
    flood_loop (fuel + 1) obj m (p :: rest) =
      flood_loop fuel (obj.push p) (set_cell m p false)
        ((moore_pushes (set_cell m p false) p).foldl (fun q pt => pt :: q) rest) := rfl

theorem flood_loop_nil (fuel : ℕ) (obj : BlackStone) (m : BlackPixels) :
    flood_loop (fuel + 1) obj m [] = (obj, m) := rfl

theorem flood_finish (m0 : BlackPixels) (s : Point) (hs : cell_true m0 s.cell)
    (obj : BlackStone) (m : BlackPixels) (queue : List Point)
    (hinv : FloodInv m0 s obj m queue)
    (hnone : ∀ t, same_comp m0 s.cell t → ¬ cell_true m t) :
    (∀ c, cell_true m c ↔ (cell_true m0 c ∧ ¬ same_comp m0 s.cell c)) ∧
    is_bbox obj (same_comp m0 s.cell) := by
  constructor
  · intro c
    constructor
    · intro hc
      exact ⟨hinv.sub c hc, fun hcomp => hnone c hcomp hc⟩
    · rintro ⟨h0, hncomp⟩
      by_contra hnc
      exact hncomp (hinv.cleared c h0 hnc)
  · refine is_bbox_congr ?_ hinv.bbox
    intro c
    constructor
    · rintro (rfl | ⟨h0, hnc⟩)
      · exact same_comp_refl hs
      · exact hinv.cleared c h0 hnc
    · intro hcomp
      by_cases hc : cell_true m c
      · exact absurd hc (hnone c hcomp)
      · exact Or.inr ⟨hcomp.2.1, hc⟩

/-- Run lemma for the flood-fill worklist: with an invariant-satisfying
state, the stack-order invariant, and fuel at least nine times the live
cells plus the queue length, the loop clears exactly the seed's component
and returns its tight bounding box. -/
theorem flood_loop_run (m0 : BlackPixels) (s : Point) (hs : cell_true m0 s.cell) :
    ∀ (fuel : ℕ) (obj : BlackStone) (m : BlackPixels) (queue : List Point),
      FloodInv m0 s obj m queue → FloodJ m queue →
      9 * count_true m + queue.length ≤ fuel →
      (∀ c, cell_true (flood_loop fuel obj m queue).2 c ↔
          (cell_true m0 c ∧ ¬ same_comp m0 s.cell c)) ∧
      is_bbox (flood_loop fuel obj m queue).1 (same_comp m0 s.cell) := by
  intro fuel
  induction fuel with
  | zero =>
    intro obj m queue hinv hJ hfuel
    have hq : queue = [] := by
      cases queue with
      | nil => rfl
      | cons a t => simp [List.length_cons] at hfuel
    subst hq
    have hT : count_true m = 0 := by omega
    have hnone : ∀ t, same_comp m0 s.cell t → ¬ cell_true m t := by
      intro t _ htrue
      have := cell_true_count_pos htrue
      omega
    exact flood_finish m0 s hs obj m [] hinv hnone
  | succ fuel ih =>
    intro obj m queue hinv hJ hfuel
    cases queue with
    | nil =>
      rw [flood_loop_nil]
      have hnone : ∀ t, same_comp m0 s.cell t → ¬ cell_true m t := by
        intro t hcomp htrue
        obtain ⟨q, hq, _⟩ := hinv.frontier t hcomp htrue
        cases hq
      exact flood_finish m0 s hs obj m [] hinv hnone
    | cons p rest =>
      by_cases hp : cell_true m p.cell
      · -- a set cell is popped: it is cleared and its set Moore box is pushed
        rw [flood_loop_cons, foldl_cons_eq_reverse_append]
        have hpcomp : same_comp m0 s.cell p.cell :=
          hinv.queue_comp p (List.mem_cons_self _ _)
        have hpm' : ¬ cell_true (set_cell m p false) p.cell := by
          intro h
          exact ((cell_true_set_cell m p p.cell).mp h).2 rfl
        have hsub' : ∀ c, cell_true (set_cell m p false) c → cell_true m c :=
          fun c h => cell_true_of_set_cell h
        have hPlen := moore_pushes_length_le (set_cell m p false) p
        -- the invariant for the new state
        have hinv' : FloodInv m0 s (obj.push p) (set_cell m p false)
            ((moore_pushes (set_cell m p false) p).reverse ++ rest) := by
          refine ⟨?_, ?_, ?_, ?_, ?_⟩
          · intro c hc
            exact hinv.sub c (hsub' c hc)
          · intro c h0 hnc
            by_cases hcp : c = p.cell
            · exact hcp ▸ hpcomp
            · have : ¬ cell_true m c := by
                intro hc
                exact hnc ((cell_true_set_cell m p c).mpr ⟨hc, hcp⟩)
              exact hinv.cleared c h0 this
          · intro q hq
            rcases List.mem_append.mp hq with hql | hqr
            · rw [List.mem_reverse] at hql
              obtain ⟨hqt, hqn⟩ := (mem_moore_pushes _ p q).mp hql
              have hqne : q.cell ≠ p.cell := by
                intro h
                exact hpm' (h ▸ hqt)
              refine same_comp_step hpcomp hpcomp.2.1
                (hinv.sub q.cell (hsub' _ hqt)) ?_
              exact ⟨Ne.symm hqne, hqn.1, hqn.2⟩
            · exact hinv.queue_comp q (List.mem_cons_of_mem _ hqr)
          · intro t hcomp htrue
            obtain ⟨q, hq, hreach⟩ := hinv.frontier t hcomp (hsub' t htrue)
            rcases reaches_transfer hreach htrue with hleft | ⟨u, hut, hun, hur⟩
            · rcases List.mem_cons.mp hq with rfl | hqr
              · exact absurd hleft (reaches_from_false hpm' htrue)
              · exact ⟨q, List.mem_append_right _ hqr, hleft⟩
            · refine ⟨⟨u.1, u.2⟩, ?_, ?_⟩
              · apply List.mem_append_left
                rw [List.mem_reverse, mem_moore_pushes]
                constructor
                · show cell_true _ (u.1, u.2)
                  rw [Prod.mk.eta]
                  exact hut
                · show near p (u.1, u.2)
                  rw [Prod.mk.eta]
                  exact hun
              · show reaches _ (u.1, u.2) t
                rw [Prod.mk.eta]
                exact hur
          · refine is_bbox_congr ?_ (is_bbox_push _ _ p hinv.bbox)
            intro c
            constructor
            · rintro (h | rfl)
              · rcases h with rfl | ⟨h0, hnc⟩
                · exact Or.inl rfl
                · refine Or.inr ⟨h0, ?_⟩
                  intro hc
                  exact hnc (hsub' c hc)
              · exact Or.inr ⟨hpcomp.2.1, hpm'⟩
            · rintro (rfl | ⟨h0, hnc⟩)
              · exact Or.inl (Or.inl rfl)
              · by_cases hcp : c = p.cell
                · exact Or.inr hcp
                · refine Or.inl (Or.inr ⟨h0, ?_⟩)
                  intro hc
                  exact hnc ((cell_true_set_cell m p c).mpr ⟨hc, hcp⟩)
        -- the stack-order invariant for the new state
        have hJ' : FloodJ (set_cell m p false)
            ((moore_pushes (set_cell m p false) p).reverse ++ rest) := by
          intro i r hget hrfalse u hnear hutrue
          rcases Nat.lt_or_ge i (moore_pushes (set_cell m p false) p).reverse.length
            with hi | hi
          · exfalso
            rw [List.get?_append hi] at hget
            have hrmem : r ∈ (moore_pushes (set_cell m p false) p).reverse :=
              List.get?_mem hget
            rw [List.mem_reverse] at hrmem
            exact hrfalse ((mem_moore_pushes _ p r).mp hrmem).1
          · rw [List.get?_append_right hi] at hget
            by_cases hrp : r.cell = p.cell
            · have hrep : r = p := Point.cell_inj hrp
              subst hrep
              have humem : u ∈ moore_pushes (set_cell m r false) r :=
                (mem_moore_pushes _ r u).mpr ⟨hutrue, hnear⟩
              have humem' : u ∈ (moore_pushes (set_cell m r false) r).reverse :=
                List.mem_reverse.mpr humem
              obtain ⟨j, hjget⟩ := List.get?_of_mem humem'
              have hj : j < (moore_pushes (set_cell m r false) r).reverse.length := by
                rcases List.get?_eq_some.mp hjget with ⟨hlt, _⟩
                exact hlt
              refine ⟨j, lt_of_lt_of_le hj hi, ?_⟩
              rw [List.get?_append hj]
              exact hjget
            · have hrfalse_m : ¬ cell_true m r.cell := by
                intro h
                exact hrfalse ((cell_true_set_cell m p r.cell).mpr ⟨h, hrp⟩)
              have hutrue_m : cell_true m u.cell := hsub' _ hutrue
              have hget_old : (p :: rest).get? (i -
                  (moore_pushes (set_cell m p false) p).reverse.length + 1) = some r := by
                simp only [List.get?]
                exact hget
              obtain ⟨j, hj, hjget⟩ := hJ _ r hget_old hrfalse_m u hnear hutrue_m
              cases j with
              | zero =>
                exfalso
                simp only [List.get?] at hjget
                injection hjget with hup
                subst hup
                exact hpm' hutrue
              | succ j' =>
                simp only [List.get?] at hjget
                refine ⟨(moore_pushes (set_cell m p false) p).reverse.length + j', ?_, ?_⟩
                · omega
                · rw [List.get?_append_right (by omega)]
                  rw [show (moore_pushes (set_cell m p false) p).reverse.length + j' -
                      (moore_pushes (set_cell m p false) p).reverse.length = j' by omega]
                  exact hjget
        have hfuel' : 9 * count_true (set_cell m p false) +
            ((moore_pushes (set_cell m p false) p).reverse ++ rest).length ≤ fuel := by
          have hcount := count_true_clear_true hp
          rw [List.length_append, List.length_reverse]
          simp only [List.length_cons] at hfuel
          omega
        exact ih (obj.push p) (set_cell m p false)
          ((moore_pushes (set_cell m p false) p).reverse ++ rest) hinv' hJ' hfuel'
      · -- an already-cleared cell is popped: nothing is set and nothing pushed
        rw [flood_loop_cons, set_cell_false_eq hp]
        have hP : moore_pushes m p = [] := by
          rw [List.eq_nil_iff_forall_not_mem]
          intro u hu
          obtain ⟨hut, hun⟩ := (mem_moore_pushes m p u).mp hu
          obtain ⟨j, hj, _⟩ := hJ 0 p rfl hp u hun hut
          omega
        rw [hP]
        simp only [List.foldl_nil]
        have hpcomp : same_comp m0 s.cell p.cell :=
          hinv.queue_comp p (List.mem_cons_self _ _)
        have hinv' : FloodInv m0 s (obj.push p) m rest := by
          refine ⟨hinv.sub, hinv.cleared, ?_, ?_, ?_⟩
          · intro q hq
            exact hinv.queue_comp q (List.mem_cons_of_mem _ hq)
          · intro t hcomp htrue
            obtain ⟨q, hq, hreach⟩ := hinv.frontier t hcomp htrue
            rcases List.mem_cons.mp hq with rfl | hqr
            · exact absurd hreach (reaches_from_false hp htrue)
            · exact ⟨q, hqr, hreach⟩
          · exact is_bbox_push_absorb hinv.bbox (Or.inr ⟨hpcomp.2.1, hp⟩)
        have hJ' : FloodJ m rest := by
          intro i r hget hrfalse u hnear hutrue
          have hget_old : (p :: rest).get? (i + 1) = some r := by
            simp only [List.get?]
            exact hget
          obtain ⟨j, hj, hjget⟩ := hJ (i + 1) r hget_old hrfalse u hnear hutrue
          cases j with
          | zero =>
            exfalso
            simp only [List.get?] at hjget
            injection hjget with hup
            subst hup
            exact hp hutrue
          | succ j' =>
            simp only [List.get?] at hjget
            exact ⟨j', by omega, hjget⟩
        have hfuel' : 9 * count_true m + rest.length ≤ fuel := by
          simp only [List.length_cons] at hfuel
          omega
        exact ih (obj.push p) m rest hinv' hJ' hfuel'

/-- flood_fill clears exactly the popped seed's component and returns its
tight bounding box. -/
theorem flood_fill_spec (m : BlackPixels) (cur : Point)
    (hp : cell_true m cur.cell) :
    (∀ c, cell_true (flood_fill (BlackStone.new cur) m).2 c ↔
      (cell_true m c ∧ ¬ same_comp m cur.cell c)) ∧
    is_bbox (flood_fill (BlackStone.new cur) m).1 (same_comp m cur.cell) := by
  unfold flood_fill
  apply flood_loop_run m cur hp
  · refine ⟨fun c h => h, fun c h hn => absurd h hn, ?_, ?_, ?_⟩
    · intro q hq
      rw [List.mem_singleton] at hq
      subst hq
      exact same_comp_refl hp
    · intro t hcomp _
      exact ⟨cur, List.mem_singleton.mpr rfl, hcomp.2.2⟩
    · refine is_bbox_congr ?_ (is_bbox_new cur)
      intro c
      constructor
      · intro h
        exact Or.inl h
      · rintro (h | ⟨h, hn⟩)
        · exact h
        · exact absurd h hn
  · intro i r hget hrfalse u hnear hutrue
    cases i with
    | zero =>
      simp only [List.get?] at hget
      injection hget with h
      subst h
      exact absurd hp hrfalse
    | succ i' =>
      simp only [List.get?] at hget
      cases i' <;> simp at hget
  · simp only [List.length_singleton]
    omega

/-- Row-major index of a cell on a width-w grid. -/
def cell_idx (w : ℕ) (c : Cell) : ℕ := c.2 * w + c.1

theorem cell_true_in_bounds {M0 : BlackPixels} {w h : ℕ}
    (hrect : M0.length = h ∧ ∀ row ∈ M0, row.length = w) {c : Cell}
    (hc : cell_true M0 c) : c.1 < w ∧ c.2 < h := by
  rw [cell_true_iff_get?] at hc
  obtain ⟨row, hg, hr⟩ := hc
  have hylt : c.2 < M0.length := by
    by_contra hge
    rw [List.get?_eq_none.mpr (le_of_not_lt hge)] at hg
    cases hg
  have hrowmem : row ∈ M0 := List.get?_mem hg
  have hxlt : c.1 < row.length := by
    by_contra hge
    rw [List.get?_eq_none.mpr (le_of_not_lt hge)] at hr
    cases hr
  exact ⟨by rw [← hrect.2 row hrowmem]; exact hxlt, by rw [← hrect.1]; exact hylt⟩

theorem cell_idx_inj {w : ℕ} {c d : Cell} (hc : c.1 < w) (hd : d.1 < w)
    (h : cell_idx w c = cell_idx w d) : c = d := by
  unfold cell_idx at h
  have hmod : c.1 = d.1 := by
    have h1 : (c.1 + c.2 * w) % w = c.1 := by
      rw [Nat.add_mul_mod_self_right]
      exact Nat.mod_eq_of_lt hc
    have h2 : (d.1 + d.2 * w) % w = d.1 := by
      rw [Nat.add_mul_mod_self_right]
      exact Nat.mod_eq_of_lt hd
    have h' : c.1 + c.2 * w = d.1 + d.2 * w := by
      rw [Nat.add_comm c.1, Nat.add_comm d.1]
      exact h
    rw [← h1, ← h2, h']
  have hdiv : c.2 = d.2 := by
    have h'' : c.2 * w = d.2 * w := by
      rw [hmod] at h
      exact Nat.add_right_cancel h
    have hw : 0 < w := lt_of_le_of_lt (Nat.zero_le _) hc
    exact Nat.eq_of_mul_eq_mul_right hw h''
  exact Prod.ext hmod hdiv

theorem forall2_append_single {α β : Type} {R : α → β → Prop} {l1 : List α}
    {l2 : List β} (h : List.Forall₂ R l1 l2) {a : α} {b : β} (hab : R a b) :
    List.Forall₂ R (l1 ++ [a]) (l2 ++ [b]) := by
  induction h with
  | nil => exact List.Forall₂.cons hab List.Forall₂.nil
  | cons hR _ ih => exact List.Forall₂.cons hR ih

/-- A component of the full mask all of whose cells survive in a submask is a
component of the submask. -/
theorem same_comp_restrict {M0 m : BlackPixels} {a : Cell}
    (hkeep : ∀ c, same_comp M0 a c → cell_true m c)
    {b : Cell} (h : same_comp M0 a b) : same_comp m a b := by
  obtain ⟨ha0, hb0, hr⟩ := h
  refine ⟨hkeep a (same_comp_refl ha0), hkeep b ⟨ha0, hb0, hr⟩, ?_⟩
  clear hb0
  induction hr with
  | refl => exact Relation.ReflTransGen.refl
  | tail hpre hlast ih =>
    rename_i b' c'
    have hab' : same_comp M0 a b' := ⟨ha0, hlast.1, hpre⟩
    have hac' : same_comp M0 a c' :=
      ⟨ha0, hlast.2.1, Relation.ReflTransGen.tail hpre hlast⟩
    exact Relation.ReflTransGen.tail ih ⟨hkeep b' hab', hkeep c' hac', hlast.2.2⟩

/-- Scan invariant at cursor cur: the mask has lost exactly the components
that own a cell before the cursor, reps lists one minimal seed per lost
component, every lost component has its rep, distinct reps lie in disjoint
components, and the collected objects are the tight bounding boxes of the
reps' components, in order. -/
structure ScanInv (M0 : BlackPixels) (w : ℕ) (cur : Point) (m : BlackPixels)
    (objects : List BlackStone) (reps : List Point) : Prop where
  mask : ∀ c, cell_true m c ↔ (cell_true M0 c ∧
    ¬ ∃ f, same_comp M0 f c ∧ cell_idx w f < cell_idx w cur.cell)
  reps_min : ∀ r ∈ reps, cell_true M0 r.cell ∧
    cell_idx w r.cell < cell_idx w cur.cell ∧
    ∀ f, same_comp M0 f r.cell → cell_idx w r.cell ≤ cell_idx w f
  reps_cover : ∀ c, cell_true M0 c →
    (∃ f, same_comp M0 f c ∧ cell_idx w f < cell_idx w cur.cell) →
    ∃ r ∈ reps, same_comp M0 r.cell c
  reps_disj : reps.Pairwise
    (fun r r' => ¬ ∃ c, same_comp M0 r.cell c ∧ same_comp M0 r'.cell c)
  obj_bbox : List.Forall₂ (fun b r => is_bbox b (same_comp M0 r.cell)) objects reps

theorem scan_loop_step (last : Point) (fuel : ℕ) (cur : Point) (m : BlackPixels)
    (objects : List BlackStone) (hne : cur ≠ last) :
    scan_loop last (fuel + 1) cur m objects =
      if pixel_value m (cur.x : ℤ) (cur.y : ℤ) false = true then
        scan_loop last fuel
          (if cur.x = last.x then ⟨0, cur.y + 1⟩ else ⟨cur.x + 1, cur.y⟩)
          (flood_fill (BlackStone.new cur) m).2
          (objects ++ [(flood_fill (BlackStone.new cur) m).1])
      else
        scan_loop last fuel
          (if cur.x = last.x then ⟨0, cur.y + 1⟩ else ⟨cur.x + 1, cur.y⟩) m objects := by
  rw [scan_loop, if_neg hne]
  by_cases hpv : pixel_value m (cur.x : ℤ) (cur.y : ℤ) false = true
  · rw [if_pos hpv, if_pos hpv]
  · rw [if_neg hpv, if_neg hpv]

theorem started_succ {M0 : BlackPixels} {w h : ℕ}
    (hrect : M0.length = h ∧ ∀ row ∈ M0, row.length = w)
    (cur : Point) (hcx : cur.x < w) (c : Cell) :
    (∃ f, same_comp M0 f c ∧ cell_idx w f < cell_idx w cur.cell + 1) ↔
      ((∃ f, same_comp M0 f c ∧ cell_idx w f < cell_idx w cur.cell) ∨
        same_comp M0 cur.cell c) := by
  constructor
  · rintro ⟨f, hf, hlt⟩
    rcases Nat.lt_or_ge (cell_idx w f) (cell_idx w cur.cell) with hc | hc
    · exact Or.inl ⟨f, hf, hc⟩
    · have heq : cell_idx w f = cell_idx w cur.cell := by omega
      have hfw : f.1 < w := (cell_true_in_bounds hrect hf.1).1
      have hfc : f = cur.cell := cell_idx_inj hfw (by exact hcx) heq
      exact Or.inr (hfc ▸ hf)
  · rintro (⟨f, hf, hlt⟩ | hcc)
    · exact ⟨f, hf, by omega⟩
    · exact ⟨cur.cell, hcc, by omega⟩

theorem scan_loop_run (M0 : BlackPixels) (w h : ℕ)
    (hrect : M0.length = h ∧ ∀ row ∈ M0, row.length = w)
    (hw : 1 ≤ w) (hh : 1 ≤ h) :
    ∀ (fuel : ℕ) (cur : Point) (m : BlackPixels) (objects : List BlackStone)
      (reps : List Point),
      ScanInv M0 w cur m objects reps →
      cur.x ≤ w - 1 → cur.y ≤ h - 1 →
      cell_idx w ((w : ℕ) - 1, (h : ℕ) - 1) - cell_idx w cur.cell < fuel →
      ∃ reps' : List Point,
        (∀ r ∈ reps', cell_true M0 r.cell ∧
          ∀ f, same_comp M0 f r.cell → cell_idx w r.cell ≤ cell_idx w f) ∧
        (∀ c, cell_true M0 c →
          (∃ f, same_comp M0 f c ∧ cell_idx w f < cell_idx w ((w : ℕ) - 1, (h : ℕ) - 1)) →
          ∃ r ∈ reps', same_comp M0 r.cell c) ∧
        reps'.Pairwise
          (fun r r' => ¬ ∃ c, same_comp M0 r.cell c ∧ same_comp M0 r'.cell c) ∧
        List.Forall₂ (fun b r => is_bbox b (same_comp M0 r.cell))
          (scan_loop ⟨w - 1, h - 1⟩ fuel cur m objects) reps' := by
  intro fuel
  induction fuel with
  | zero =>
    intro cur m objects reps _ _ _ hf
    omega
  | succ fuel ih =>
    intro cur m objects reps hinv hx hy hfuel
    by_cases hlast : cur = (⟨w - 1, h - 1⟩ : Point)
    · subst hlast
      rw [scan_loop, if_pos rfl]
      refine ⟨reps, ?_, ?_, hinv.reps_disj, hinv.obj_bbox⟩
      · intro r hr
        obtain ⟨h1, _, h3⟩ := hinv.reps_min r hr
        exact ⟨h1, h3⟩
      · intro c hc hstart
        exact hinv.reps_cover c hc hstart
    · -- facts about the advanced cursor
      have hcx : cur.x < w := by omega
      have hidxlt : cell_idx w cur.cell < cell_idx w ((w : ℕ) - 1, (h : ℕ) - 1) := by
        have hle2 : cell_idx w cur.cell ≤ cell_idx w ((w : ℕ) - 1, (h : ℕ) - 1) := by
          unfold cell_idx Point.cell
          simp only
          have : cur.y * w ≤ (h - 1) * w := Nat.mul_le_mul_right w hy
          omega
        rcases Nat.lt_or_ge (cell_idx w cur.cell)
          (cell_idx w ((w : ℕ) - 1, (h : ℕ) - 1)) with hlt | hge
        · exact hlt
        · exfalso
          apply hlast
          have heq : cell_idx w cur.cell = cell_idx w ((w : ℕ) - 1, (h : ℕ) - 1) := by omega
          have := cell_idx_inj (c := cur.cell) (d := ((w : ℕ) - 1, (h : ℕ) - 1))
            (by exact hcx) (by omega) heq
          unfold Point.cell at this
          cases cur
          simp only at this
          injection this with h1 h2
          subst h1
          subst h2
          rfl
      have hnext : cell_idx w (if cur.x = (⟨(w : ℕ) - 1, (h : ℕ) - 1⟩ : Point).x
          then (⟨0, cur.y + 1⟩ : Point) else ⟨cur.x + 1, cur.y⟩).cell
            = cell_idx w cur.cell + 1 ∧
          (if cur.x = (⟨(w : ℕ) - 1, (h : ℕ) - 1⟩ : Point).x
          then (⟨0, cur.y + 1⟩ : Point) else ⟨cur.x + 1, cur.y⟩).x ≤ w - 1 ∧
          (if cur.x = (⟨(w : ℕ) - 1, (h : ℕ) - 1⟩ : Point).x
          then (⟨0, cur.y + 1⟩ : Point) else ⟨cur.x + 1, cur.y⟩).y ≤ h - 1 := by
        by_cases hcw : cur.x = (⟨(w : ℕ) - 1, (h : ℕ) - 1⟩ : Point).x
        · rw [if_pos hcw]
          simp only at hcw
          have hylt : cur.y < h - 1 := by
            rcases Nat.lt_or_ge cur.y (h - 1) with hlt | hge
            · exact hlt
            · exfalso
              apply hlast
              have hyeq : cur.y = h - 1 := by omega
              cases cur
              simp only at hcw hyeq
              subst hcw
              subst hyeq
              rfl
          refine ⟨?_, by dsimp only; omega, by dsimp only; omega⟩
          unfold cell_idx Point.cell
          dsimp only
          have hexp : (cur.y + 1) * w = cur.y * w + w := by ring
          omega
        · rw [if_neg hcw]
          simp only at hcw
          refine ⟨?_, by dsimp only; omega, by dsimp only; omega⟩
          unfold cell_idx Point.cell
          dsimp only
          omega
      obtain ⟨hnidx, hnx, hny⟩ := hnext
      rw [scan_loop_step _ _ _ _ _ hlast]
      by_cases hpv : pixel_value m (cur.x : ℤ) (cur.y : ℤ) false = true
      · -- the cursor sits on a set cell: flood fill its component
        rw [if_pos hpv]
        have hptrue : cell_true m cur.cell := by
          unfold cell_true
          rw [← pixel_value_natCast]
          exact hpv
        have hM0cur : cell_true M0 cur.cell ∧
            ¬ ∃ f, same_comp M0 f cur.cell ∧
              cell_idx w f < cell_idx w cur.cell :=
          (hinv.mask cur.cell).mp hptrue
        have msub : ∀ c, cell_true m c → cell_true M0 c :=
          fun c hc => ((hinv.mask c).mp hc).1
        obtain ⟨hm1, hbb⟩ := flood_fill_spec m cur hptrue
        have hkeep : ∀ c, same_comp M0 cur.cell c → cell_true m c := by
          intro c hcc
          refine (hinv.mask c).mpr ⟨hcc.2.1, ?_⟩
          rintro ⟨f, hf, hlt⟩
          exact hM0cur.2 ⟨f, same_comp_trans hf (same_comp_symm hcc), hlt⟩
        have hcompiff : ∀ c, same_comp m cur.cell c ↔ same_comp M0 cur.cell c := by
          intro c
          constructor
          · intro hsc
            exact ⟨msub _ hsc.1, msub _ hsc.2.1, reaches_mono msub hsc.2.2⟩
          · intro hsc
            exact same_comp_restrict hkeep hsc
        have hinv' : ScanInv M0 w
            (if cur.x = (⟨(w : ℕ) - 1, (h : ℕ) - 1⟩ : Point).x
              then (⟨0, cur.y + 1⟩ : Point) else ⟨cur.x + 1, cur.y⟩)
            (flood_fill (BlackStone.new cur) m).2
            (objects ++ [(flood_fill (BlackStone.new cur) m).1])
            (reps ++ [cur]) := by
          refine ⟨?_, ?_, ?_, ?_, ?_⟩
          · intro c
            rw [hm1 c, hinv.mask c, hnidx, started_succ hrect cur hcx c, hcompiff c]
            constructor
            · rintro ⟨⟨hc0, hns⟩, hnsame⟩
              refine ⟨hc0, ?_⟩
              rintro (hs | hsame)
              · exact hns hs
              · exact hnsame hsame
            · rintro ⟨hc0, hn⟩
              exact ⟨⟨hc0, fun hs => hn (Or.inl hs)⟩, fun hsame => hn (Or.inr hsame)⟩
          · intro r hr
            rcases List.mem_append.mp hr with hro | hrn
            · obtain ⟨h1, h2, h3⟩ := hinv.reps_min r hro
              exact ⟨h1, by omega, h3⟩
            · rw [List.mem_singleton] at hrn
              subst hrn
              refine ⟨hM0cur.1, by omega, ?_⟩
              intro f hf
              by_contra hltc
              exact hM0cur.2 ⟨f, hf, by omega⟩
          · intro c hc hstart
            rw [hnidx, started_succ hrect cur hcx c] at hstart
            rcases hstart with hold | hcc
            · obtain ⟨r, hr, hrc⟩ := hinv.reps_cover c hc hold
              exact ⟨r, List.mem_append_left _ hr, hrc⟩
            · exact ⟨cur, List.mem_append_right _ (List.mem_singleton.mpr rfl), hcc⟩
          · rw [List.pairwise_append]
            refine ⟨hinv.reps_disj, List.pairwise_singleton _ _, ?_⟩
            intro r hr r' hr'
            rw [List.mem_singleton] at hr'
            rintro ⟨c, h1, h2⟩
            rw [hr'] at h2
            have hrcur : same_comp M0 r.cell cur.cell :=
              same_comp_trans h1 (same_comp_symm h2)
            exact hM0cur.2 ⟨r.cell, hrcur, (hinv.reps_min r hr).2.1⟩
          · exact forall2_append_single hinv.obj_bbox
              (is_bbox_congr hcompiff hbb)
        obtain ⟨reps', hc1, hc2, hc3, hc4⟩ := ih _ _ _ _ hinv' hnx hny (by omega)
        exact ⟨reps', hc1, hc2, hc3, hc4⟩
      · -- the cursor sits on a cleared or empty cell: only advance
        rw [if_neg hpv]
        have hpfalse : ¬ cell_true m cur.cell := by
          intro hc
          apply hpv
          unfold cell_true at hc
          rw [← pixel_value_natCast] at hc
          exact hc
        have hnotcomp : ∀ c, cell_true M0 c →
            (¬ ∃ f, same_comp M0 f c ∧ cell_idx w f < cell_idx w cur.cell) →
            ¬ same_comp M0 cur.cell c := by
          intro c hc hnstart hcc
          have hM0cur : cell_true M0 cur.cell := hcc.1
          have hcurstart : ∃ f, same_comp M0 f cur.cell ∧
              cell_idx w f < cell_idx w cur.cell := by
            by_contra hn
            exact hpfalse ((hinv.mask cur.cell).mpr ⟨hM0cur, hn⟩)
          obtain ⟨g, hg, hglt⟩ := hcurstart
          exact hnstart ⟨g, same_comp_trans hg hcc, hglt⟩
        have hinv' : ScanInv M0 w
            (if cur.x = (⟨(w : ℕ) - 1, (h : ℕ) - 1⟩ : Point).x
              then (⟨0, cur.y + 1⟩ : Point) else ⟨cur.x + 1, cur.y⟩)
            m objects reps := by
          refine ⟨?_, ?_, ?_, hinv.reps_disj, hinv.obj_bbox⟩
          · intro c
            rw [hinv.mask c, hnidx, started_succ hrect cur hcx c]
            constructor
            · rintro ⟨hc, hns⟩
              refine ⟨hc, ?_⟩
              rintro (hs | hcc)
              · exact hns hs
              · exact hnotcomp c hc hns hcc
            · rintro ⟨hc, hns⟩
              exact ⟨hc, fun hs => hns (Or.inl hs)⟩
          · intro r hr
            obtain ⟨h1, h2, h3⟩ := hinv.reps_min r hr
            exact ⟨h1, by omega, h3⟩
          · intro c hc hstart
            rw [hnidx, started_succ hrect cur hcx c] at hstart
            rcases hstart with hold | hcc
            · exact hinv.reps_cover c hc hold
            · have hcurstart : ∃ f, same_comp M0 f cur.cell ∧
                  cell_idx w f < cell_idx w cur.cell := by
                by_contra hn
                exact hpfalse ((hinv.mask cur.cell).mpr ⟨hcc.1, hn⟩)
              obtain ⟨g, hg, hglt⟩ := hcurstart
              exact hinv.reps_cover c hc ⟨g, same_comp_trans hg hcc, hglt⟩
        obtain ⟨reps', hc1, hc2, hc3, hc4⟩ := ih _ _ _ _ hinv' hnx hny (by omega)
        exact ⟨reps', hc1, hc2, hc3, hc4⟩

theorem cell_idx_lt_last {w h : ℕ} {c : Cell}
    (hc1 : c.1 < w) (hc2 : c.2 < h) (hne : c ≠ ((w : ℕ) - 1, (h : ℕ) - 1)) :
    cell_idx w c < cell_idx w ((w : ℕ) - 1, (h : ℕ) - 1) := by
  unfold cell_idx
  simp only
  have hory : c.1 ≠ w - 1 ∨ c.2 ≠ h - 1 := by
    by_contra hcc
    push_neg at hcc
    exact hne (Prod.ext hcc.1 hcc.2)
  rcases Nat.lt_or_ge c.2 (h - 1) with hlt | hge
  · have hle : c.2 * w + w ≤ (h - 1) * w := by
      have hsucc : c.2 + 1 ≤ h - 1 := by omega
      calc c.2 * w + w = (c.2 + 1) * w := by ring
        _ ≤ (h - 1) * w := Nat.mul_le_mul_right w hsucc
    omega
  · have hc2e : c.2 = h - 1 := by omega
    have hc1ne : c.1 ≠ w - 1 := by
      rcases hory with h1 | h2
      · exact h1
      · exact absurd hc2e h2
    rw [hc2e]
    omega

/-- The blob list collected by the scan (before the noise post-filter): one
minimal representative per component started before the last cell, tight
bounding boxes, disjoint components, and coverage of every component owning
a cell before (width - 1, height - 1). -/
theorem find_black_objects_scan_spec (M0 : BlackPixels) (w h : ℕ)
    (hw : 1 ≤ w) (hh : 1 ≤ h)
    (hrect : M0.length = h ∧ ∀ row ∈ M0, row.length = w) :
    ∃ reps : List Point,
      (∀ r ∈ reps, cell_true M0 r.cell ∧
        ∀ f, same_comp M0 f r.cell → cell_idx w r.cell ≤ cell_idx w f) ∧
      (∀ c, cell_true M0 c →
        (∃ f, same_comp M0 f c ∧
          cell_idx w f < cell_idx w ((w : ℕ) - 1, (h : ℕ) - 1)) →
        ∃ r ∈ reps, same_comp M0 r.cell c) ∧
      reps.Pairwise
        (fun r r' => ¬ ∃ c, same_comp M0 r.cell c ∧ same_comp M0 r'.cell c) ∧
      List.Forall₂ (fun b r => is_bbox b (same_comp M0 r.cell))
        (find_black_objects_scan M0) reps := by
  unfold find_black_objects_scan
  have hhead : (M0.headD []).length = w := by
    cases M0 with
    | nil =>
      exfalso
      have := hrect.1
      simp at this
      omega
    | cons r0 rest => exact hrect.2 r0 (List.mem_cons_self _ _)
  rw [hhead, hrect.1]
  dsimp only
  have hw' : w - 1 + 1 = w := by omega
  have hh' : h - 1 + 1 = h := by omega
  rw [hw', hh']
  have hinv0 : ScanInv M0 w ⟨0, 0⟩ M0 [] [] := by
    refine ⟨?_, ?_, ?_, List.Pairwise.nil, List.Forall₂.nil⟩
    · intro c
      constructor
      · intro hc
        refine ⟨hc, ?_⟩
        rintro ⟨f, _, hlt⟩
        unfold cell_idx Point.cell at hlt
        dsimp only at hlt
        omega
      · intro hc
        exact hc.1
    · intro r hr
      cases hr
    · intro c _ hstart
      obtain ⟨f, _, hlt⟩ := hstart
      unfold cell_idx Point.cell at hlt
      dsimp only at hlt
      omega
  have hmul : (h - 1) * w + w = w * h := by
    calc (h - 1) * w + w = ((h - 1) + 1) * w := by ring
      _ = h * w := by rw [hh']
      _ = w * h := Nat.mul_comm h w
  exact scan_loop_run M0 w h hrect hw hh (w * h) ⟨0, 0⟩ M0 [] [] hinv0
    (by dsimp only; omega) (by dsimp only; omega)
    (by unfold cell_idx Point.cell; dsimp only; omega)

/-- Claim C3 (amended): the row-major scan visits every cell up to but
excluding (width - 1, height - 1), so the blobs collected before the size
post-filter are tight bounding boxes of pairwise-disjoint 8-connected
components of classifier-set cells, their cell sets cover every set cell
except a set cell at (width - 1, height - 1) with no set neighbor (which the
exclusive loop bound misses), and every covered cell is a set cell. -/
theorem C3_blob_partition (M0 : BlackPixels) (w h : ℕ) (hw : 1 ≤ w) (hh : 1 ≤ h)
    (hrect : M0.length = h ∧ ∀ row ∈ M0, row.length = w) :
    ∃ reps : List Point,
      List.Forall₂ (fun b r => is_bbox b (same_comp M0 r.cell))
        (find_black_objects_scan M0) reps ∧
      reps.Pairwise
        (fun r r' => ¬ ∃ c, same_comp M0 r.cell c ∧ same_comp M0 r'.cell c) ∧
      (∀ c, cell_true M0 c →
        (c ≠ ((w : ℕ) - 1, (h : ℕ) - 1) ∨ ∃ d, adj c d ∧ cell_true M0 d) →
        ∃ r ∈ reps, same_comp M0 r.cell c) ∧
      (∀ r ∈ reps, ∀ c, same_comp M0 r.cell c → cell_true M0 c) := by
  obtain ⟨reps, hmin, hcover, hdisj, hbbs⟩ :=
    find_black_objects_scan_spec M0 w h hw hh hrect
  refine ⟨reps, hbbs, hdisj, ?_, ?_⟩
  · intro c hc hcond
    apply hcover c hc
    by_cases hcorner : c = ((w : ℕ) - 1, (h : ℕ) - 1)
    · rcases hcond with hne | ⟨d, hadj, hd⟩
      · exact absurd hcorner hne
      · refine ⟨d, ⟨hd, hc, Relation.ReflTransGen.single ⟨hd, hc, adj_symm hadj⟩⟩, ?_⟩
        have hdb := cell_true_in_bounds hrect hd
        have hdne : d ≠ ((w : ℕ) - 1, (h : ℕ) - 1) := by
          rw [← hcorner]
          exact Ne.symm hadj.1
        exact cell_idx_lt_last hdb.1 hdb.2 hdne
    · have hcb := cell_true_in_bounds hrect hc
      exact ⟨c, same_comp_refl hc, cell_idx_lt_last hcb.1 hcb.2 hcorner⟩
  · intro r _ c hcc
    exact hcc.2.1

/-- Counterexample for claim C3: on the 2-by-2 mask whose only set cell is
the last cell (width - 1, height - 1), the scan loop stops when the cursor
reaches the last point without processing it, so the set corner cell belongs
to no blob: no blob is extracted at all. -/
theorem C3_corner_counterexample :
    find_black_objects_scan [[false, false], [false, true]] = [] ∧
    cell_true [[false, false], [false, true]] (1, 1) := by
  constructor
  · rfl
  · decide

/-- Witness for claim C3 at the one-cell set mask. -/
theorem C3_blob_partition_witness :
    ∃ reps : List Point,
      List.Forall₂ (fun b r => is_bbox b (same_comp [[true]] r.cell))
        (find_black_objects_scan [[true]]) reps ∧
      reps.Pairwise
        (fun r r' => ¬ ∃ c, same_comp [[true]] r.cell c ∧ same_comp [[true]] r'.cell c) ∧
      (∀ c, cell_true [[true]] c →
        (c ≠ ((1 : ℕ) - 1, (1 : ℕ) - 1) ∨ ∃ d, adj c d ∧ cell_true [[true]] d) →
        ∃ r ∈ reps, same_comp [[true]] r.cell c) ∧
      (∀ r ∈ reps, ∀ c, same_comp [[true]] r.cell c → cell_true [[true]] c) :=
  C3_blob_partition [[true]] 1 1 (by norm_num) (by norm_num) (by decide)

end GoBoard
